import Mathlib

/-!
Verification model of the Quill release scripts.

The two programs under study, Scripts/configure-sparkle.py and
Scripts/update-appcast.py, are modelled as pure functions over documents
represented as lists of characters.  Python regular-expression searches are
modelled by a small backtracking matcher over sequences of pattern atoms
(literals, single-character classes, greedy star and greedy plus), which is
faithful to the leftmost-then-greedy semantics of the patterns the scripts
actually use.  Python str.replace, str.find, str.split, str.strip and
re.sub are modelled by dedicated functions.  File-system access and process
exit codes are modelled by Option-valued inputs and explicit result
structures.
-/

namespace Quill

/-- Whitespace test matching the regex class backslash-s (ASCII range) and
Python str.strip with no arguments. -/
def isWs (c : Char) : Bool :=
  c = ' ' || c = '\t' || c = '\n' || c = '\r' || c = '\x0b' || c = '\x0c'

/-- Left brace character, written via its code point. -/
def lbrace : Char := Char.ofNat 123

/-- Right brace character, written via its code point. -/
def rbrace : Char := Char.ofNat 125

/-- Character class for the regex fragment matching any character except a
right brace. -/
def notRBrace (c : Char) : Bool := c ≠ rbrace

/-- Character class for the regex fragment matching any character except a
closing parenthesis. -/
def notRParen (c : Char) : Bool := c ≠ ')'

/-- Character class for uppercase hexadecimal digits, as used by the
product-reference pattern. -/
def isHexUp (c : Char) : Bool :=
  decide (('A' ≤ c ∧ c ≤ 'F') ∨ ('0' ≤ c ∧ c ≤ '9'))

/-- Pattern atoms: a literal string, one character of a class, a greedy
star over a class, and a greedy plus over a class. -/
inductive RAtom where
  | lit (s : List Char)
  | one (p : Char → Bool)
  | star (p : Char → Bool)
  | plus (p : Char → Bool)

/-- Backtracking helper: try to match the continuation f after consuming
k, k-1, ..., lo characters, longest first, mirroring a greedy quantifier. -/
def tryDown (f : List Char → Option (List Nat)) (cs : List Char) (lo : Nat) :
    Nat → Option (Nat × List Nat)
  | 0 =>
    match f (cs.drop 0) with
    | some ns => some (0, ns)
    | none => none
  | k + 1 =>
    match f (cs.drop (k + 1)) with
    | some ns => some (k + 1, ns)
    | none => if k + 1 ≤ lo then none else tryDown f cs lo k

/-- Match a sequence of pattern atoms at the start of cs, returning the list
of lengths consumed by each atom on the backtracking path Python would take
(greedy quantifiers, longest first). -/
def matchSeq : List RAtom → List Char → Option (List Nat)
  | [], _ => some []
  | .lit s :: rest, cs =>
    if s <+: cs then (matchSeq rest (cs.drop s.length)).map (fun ns => s.length :: ns)
    else none
  | .one p :: rest, cs =>
    match cs with
    | [] => none
    | c :: t => if p c then (matchSeq rest t).map (fun ns => 1 :: ns) else none
  | .star p :: rest, cs =>
    (tryDown (fun v => matchSeq rest v) cs 0 (cs.takeWhile p).length).map
      (fun kn => kn.1 :: kn.2)
  | .plus p :: rest, cs =>
    let m := (cs.takeWhile p).length
    if m = 0 then none
    else
      (tryDown (fun v => matchSeq rest v) cs 1 m).map (fun kn => kn.1 :: kn.2)

/-- Scan for the leftmost start position at which the pattern matches,
mirroring re.search; returns the start position (offset by i) and the
per-atom lengths of the match. -/
def searchFrom (pat : List RAtom) : List Char → Nat → Option (Nat × List Nat)
  | [], i =>
    match matchSeq pat [] with
    | some ns => some (i, ns)
    | none => none
  | c :: t, i =>
    match matchSeq pat (c :: t) with
    | some ns => some (i, ns)
    | none => searchFrom pat t (i + 1)

/-- Model of re.search: leftmost match position and per-atom lengths. -/
def reSearch (pat : List RAtom) (content : List Char) : Option (Nat × List Nat) :=
  searchFrom pat content 0

/-- Model of Python str.find for a nonempty needle: index of the first
occurrence, or none. -/
def findSub (needle : List Char) : List Char → Option Nat
  | [] => if needle = [] then some 0 else none
  | c :: t =>
    if needle <+: c :: t then some 0
    else (findSub needle t).map (fun n => n + 1)

/-- Fuel-driven worker for Python str.replace; the fuel only has to bound
the length of the subject string, and the wrapper below always supplies
exactly that, so the exhausted-fuel branch is never taken. -/
def pyReplaceAuxF (x y : List Char) : Nat → List Char → List Char
  | _, [] => []
  | 0, c :: t => c :: t
  | fuel + 1, c :: t =>
    if x <+: c :: t then y ++ pyReplaceAuxF x y fuel (List.drop (x.length - 1) t)
    else c :: pyReplaceAuxF x y fuel t

/-- Worker for Python str.replace: replace every non-overlapping occurrence
of x (nonempty) by y, scanning left to right. -/
def pyReplaceAux (x y s : List Char) : List Char :=
  pyReplaceAuxF x y s.length s

/-- Model of Python str.replace.  The empty-pattern case mirrors Python,
which inserts y before every character and at the end; all uses in the
scripts have a nonempty pattern. -/
def pyReplace (s x y : List Char) : List Char :=
  if x = [] then y ++ s.flatMap (fun c => [c] ++ y)
  else pyReplaceAux x y s

/-- Model of Python str.strip with a character-set argument: drop matching
characters from both ends. -/
def pyStrip (p : Char → Bool) (s : List Char) : List Char :=
  ((s.dropWhile p).reverse.dropWhile p).reverse

/-- Model of Python str.split on a newline: keeps empty parts, and the
split of the empty string is one empty part. -/
def splitNl : List Char → List (List Char)
  | [] => [[]]
  | c :: t =>
    if c = '\n' then [] :: splitNl t
    else
      match splitNl t with
      | [] => [[c]]
      | h :: r => (c :: h) :: r

/-- Join lines with newlines, the inverse direction of splitNl. -/
def joinNl : List (List Char) → List Char
  | [] => []
  | [l] => l
  | l :: l2 :: ls => l ++ '\n' :: joinNl (l2 :: ls)

/-!
Model of Scripts/configure-sparkle.py.

The two generated 24-character identifiers are parameters of the model,
standing for the values produced by the random identifier generator.
-/

/-- Marker searched for by the already-configured check, in lowercase. -/
def marker : List Char := "sparkle-project".toList

/-- Literal identifier and comment introducing the Quill target record in
the dependency-list pattern. -/
def quillTargetLit : List Char :=
  ("8444F69F2DEB50FA002F0BEA /* Quill */ = \x7b").toList

/-- Pattern of the target search: slash-star Quill comment, open brace, a
nonempty run without a right brace, the native-target type tag, another
such run, and the product-reference attribute with uppercase-hex value. -/
def targetPat : List RAtom :=
  [.lit ("/* Quill */ = \x7b").toList, .plus notRBrace,
   .lit ("isa = PBXNativeTarget").toList, .plus notRBrace,
   .lit ("productReference = ").toList, .plus isHexUp]

/-- Pattern of the project-object search. -/
def projectObjPat : List RAtom :=
  [.lit ("/* Project object */;").toList, .star isWs,
   .lit ("objects = \x7b").toList]

/-- Section header before which the two new sections are inserted. -/
def pbxHeader : List Char := ("/* Begin PBXProject section */").toList

/-- Pattern of the project-section search used to add the package-reference
list attribute; its single group is the whole match. -/
def projSectionPat : List RAtom :=
  [.lit ("projectDirPath = \"\";").toList, .plus notRBrace,
   .lit ("projectRoot = \"\";").toList, .plus notRBrace,
   .lit ("targets = (").toList, .plus notRParen,
   .lit (");").toList]

/-- Pattern of the Quill-target section search used to add the dependency
entry; group one is the first three atoms, group two the final literal. -/
def targetSectionPat : List RAtom :=
  [.lit quillTargetLit, .plus notRBrace,
   .lit ("packageProductDependencies = (").toList, .star isWs,
   .lit (");").toList]

/-- Synthesized remote-package-reference section, parameterized by the
generated package-reference identifier. -/
def refSection (u1 : List Char) : List Char :=
  ("\n/* Begin XCRemoteSwiftPackageReference section */\n\t\t").toList ++ u1 ++
  (" /* XCRemoteSwiftPackageReference \"Sparkle\" */ = \x7b\n\t\t\tisa = XCRemoteSwiftPackageReference;\n\t\t\trepositoryURL = \"https://github.com/sparkle-project/Sparkle\";\n\t\t\trequirement = \x7b\n\t\t\t\tkind = upToNextMajorVersion;\n\t\t\t\tminimumVersion = 2.0.0;\n\t\t\t\x7d;\n\t\t\x7d;\n/* End XCRemoteSwiftPackageReference section */\n").toList

/-- Synthesized package-product-dependency section; its package attribute
references the package-reference identifier u1 and its own identifier
is u2. -/
def depSection (u2 u1 : List Char) : List Char :=
  ("\n/* Begin XCSwiftPackageProductDependency section */\n\t\t").toList ++ u2 ++
  (" /* Sparkle */ = \x7b\n\t\t\tisa = XCSwiftPackageProductDependency;\n\t\t\tpackage = ").toList ++ u1 ++
  (" /* XCRemoteSwiftPackageReference \"Sparkle\" */;\n\t\t\tproductName = Sparkle;\n\t\t\x7d;\n/* End XCSwiftPackageProductDependency section */\n").toList

/-- Synthesized package-references list attribute appended after the
matched project-section run. -/
def pkgRefsAttr (u1 : List Char) : List Char :=
  ("\n\t\t\tpackageReferences = (\n\t\t\t\t").toList ++ u1 ++
  (" /* XCRemoteSwiftPackageReference \"Sparkle\" */,\n\t\t\t);").toList

/-- Synthesized dependency-list entry inserted between the matched groups
of the Quill-target section pattern. -/
def depEntry (u2 : List Char) : List Char :=
  ("\n\t\t\t\t").toList ++ u2 ++ (" /* Sparkle */,\n\t\t\t").toList

/-- Diagnostic lines printed by the object-graph patcher. -/
inductive SMsg where
  | uuidRef (u : List Char)
  | uuidProd (u : List Char)
  | alreadyConfigured
  | errNoTarget
  | errNoProjectObject
  | errNoPBXSection
  | added
deriving DecidableEq

/-- Result of one run of the object-graph patcher: the returned boolean,
the content written back (none when no write happens), and the printed
diagnostics in order. -/
structure SResult where
  ok : Bool
  written : Option (List Char)
  logs : List SMsg
deriving DecidableEq

/-- Insertion of the two synthesized sections before the PBXProject section
header at position pos. -/
def spliceSections (u1 u2 content : List Char) (pos : Nat) : List Char :=
  content.take pos ++ refSection u1 ++ ['\n'] ++ depSection u2 u1 ++ ['\n'] ++
    content.drop pos

/-- Step three of the patcher: if the project-section pattern matches, the
whole matched string g1 is replaced everywhere by itself followed by the
package-references attribute; otherwise the content is left unchanged,
with no diagnostic. -/
def step3 (u1 c2 : List Char) : List Char :=
  match reSearch projSectionPat c2 with
  | none => c2
  | some (i, ns) =>
    let g1 := (c2.drop i).take ns.sum
    pyReplace c2 g1 (g1 ++ pkgRefsAttr u1)

/-- Step four of the patcher: if the Quill-target section pattern matches,
the whole matched string is replaced everywhere by group one, the new
dependency entry, and group two; otherwise the content is left unchanged,
with no diagnostic. -/
def step4 (u2 c3 : List Char) : List Char :=
  match reSearch targetSectionPat c3 with
  | none => c3
  | some (i, ns) =>
    let g0 := (c3.drop i).take ns.sum
    let g1 := (c3.drop i).take (ns.take 3).sum
    let g2 := ((c3.drop i).drop (ns.take 4).sum).take (ns.getD 4 0)
    pyReplace c3 g0 (g1 ++ depEntry u2 ++ g2)

/-- Model of add_sparkle_to_project: the full object-graph patch on one
document, parameterized by the two generated identifiers. -/
def addSparkle (u1 u2 content : List Char) : SResult :=
  let base := [SMsg.uuidRef u1, SMsg.uuidProd u2]
  if marker <:+: content.map Char.toLower then
    ⟨false, none, base ++ [SMsg.alreadyConfigured]⟩
  else
    match reSearch targetPat content with
    | none => ⟨false, none, base ++ [SMsg.errNoTarget]⟩
    | some _ =>
      match reSearch projectObjPat content with
      | none => ⟨false, none, base ++ [SMsg.errNoProjectObject]⟩
      | some _ =>
        match findSub pbxHeader content with
        | none => ⟨false, none, base ++ [SMsg.errNoPBXSection]⟩
        | some pos =>
          let c4 := step4 u2 (step3 u1 (spliceSections u1 u2 content pos))
          ⟨true, some c4, base ++ [SMsg.added]⟩

/-!
Model of the Info.plist creation and project-settings update performed by
configure-sparkle.py after the object-graph patch.
-/

/-- Fixed Info.plist content written when the file is absent. -/
def infoPlistContent : List Char :=
  ("<?xml version=\"1.0\" encoding=\"UTF-8\"?>\n<!DOCTYPE plist PUBLIC \"-//Apple//DTD PLIST 1.0//EN\" \"http://www.apple.com/DTDs/PropertyList-1.0.dtd\">\n<plist version=\"1.0\">\n<dict>\n\t<key>SUFeedURL</key>\n\t<string>https://raw.githubusercontent.com/YOUR_USERNAME/quill/main/appcast.xml</string>\n\t<key>SUEnableAutomaticChecks</key>\n\t<true/>\n\t<key>SUScheduledCheckInterval</key>\n\t<integer>86400</integer>\n\t<key>SUPublicEDKey</key>\n\t<string>YOUR_PUBLIC_KEY_HERE</string>\n</dict>\n</plist>\n").toList

/-- Generic scanner for re.sub over all non-overlapping matches: tryAt
reports the match length at the current position together with the fully
substituted replacement text; the scan resumes after each match.  All
patterns used by the scripts match at least one character, so the
zero-length guard is never taken. -/
def reSubG (tryAt : List Char → Option (Nat × List Char)) : List Char → List Char
  | [] => []
  | c :: t =>
    match tryAt (c :: t) with
    | some (mlen, repl) =>
      if mlen = 0 then c :: reSubG tryAt t
      else repl ++ reSubG tryAt (List.drop (mlen - 1) t)
    | none => c :: reSubG tryAt t
termination_by cs => cs.length
decreasing_by all_goals simp <;> omega

/-- First alternative of the build-settings patterns: the literal Debug
configuration identifier with its one-character class.  The alternation in
the source pattern scopes over the whole group, so this alternative is not
followed by the brace-and-attribute part. -/
def debugAlt : List RAtom :=
  [.lit ("8444F6C").toList, .one (fun c => c = '4' || c = '5'),
   .lit ("2DEB50FD002F0BEA /* Debug").toList]

/-- Second alternative of the first build-settings pattern: the Release
comment tail, a run without right braces, and the generate-plist
attribute name. -/
def releaseAlt1 : List RAtom :=
  [.lit ("Release */ = \x7b").toList, .plus notRBrace,
   .lit ("GENERATE_INFOPLIST_FILE = ").toList]

/-- Second alternative of the second build-settings pattern, expecting the
attribute already set to NO. -/
def releaseAlt2 : List RAtom :=
  [.lit ("Release */ = \x7b").toList, .plus notRBrace,
   .lit ("GENERATE_INFOPLIST_FILE = NO;").toList]

/-- Position matcher of the first substitution: either alternative followed
by the literal YES; the replacement keeps group one and writes NO. -/
def sub1TryAt (cs : List Char) : Option (Nat × List Char) :=
  match matchSeq (debugAlt ++ [.lit ("YES;").toList]) cs with
  | some ns => some (ns.sum, cs.take (ns.sum - 4) ++ ("NO;").toList)
  | none =>
    match matchSeq (releaseAlt1 ++ [.lit ("YES;").toList]) cs with
    | some ns => some (ns.sum, cs.take (ns.sum - 4) ++ ("NO;").toList)
    | none => none

/-- Position matcher of the second substitution: either alternative, with
the whole match kept and the INFOPLIST_FILE line appended. -/
def sub2TryAt (cs : List Char) : Option (Nat × List Char) :=
  match matchSeq debugAlt cs with
  | some ns =>
    some (ns.sum, cs.take ns.sum ++ ("\n\t\t\t\tINFOPLIST_FILE = Quill/Info.plist;").toList)
  | none =>
    match matchSeq releaseAlt2 cs with
    | some ns =>
      some (ns.sum, cs.take ns.sum ++ ("\n\t\t\t\tINFOPLIST_FILE = Quill/Info.plist;").toList)
    | none => none

/-- Model of update_project_for_info_plist: the two substitutions in
sequence. -/
def updateProjForPlist (content : List Char) : List Char :=
  reSubG sub2TryAt (reSubG sub1TryAt content)

/-- Outcome of the configure-sparkle command: process exit code, the final
project content when any write to it happened, and whether the plist was
created. -/
structure CResult where
  exitCode : Nat
  projectWritten : Option (List Char)
  plistCreated : Bool
deriving DecidableEq

/-- Model of the configure-sparkle main: exit 1 only when the project file
is missing; the patch result is not consulted for the exit status. -/
def mainConfigure (projectFile : Option (List Char)) (plistExists : Bool)
    (u1 u2 : List Char) : CResult :=
  match projectFile with
  | none => ⟨1, none, false⟩
  | some content =>
    let r := addSparkle u1 u2 content
    if plistExists then ⟨0, r.written, false⟩
    else ⟨0, some (updateProjForPlist (r.written.getD content)), true⟩

/-!
Model of Scripts/update-appcast.py.
-/

/-- Recognized heading of the change-notes section. -/
def magic1 : List Char := ("## What\x27s Changed").toList

/-- Alternative recognized heading of the change-notes section. -/
def magic2 : List Char := ("## What\x27s New").toList

/-- Prefix identifying a same-level markdown heading. -/
def hashHash : List Char := ("## ").toList

/-- Default sentence substituted when no notes are found. -/
def defaultNote : List Char := ("See the full release notes for details.").toList

/-- Character set of Python str.strip with the dash-space argument. -/
def isDashSpace (c : Char) : Bool := c = '-' || c = ' '

/-- Lowercase-hex digit class of the commit-hash pattern. -/
def isHexLow (c : Char) : Bool :=
  decide (('a' ≤ c ∧ c ≤ 'f') ∨ ('0' ≤ c ∧ c ≤ '9'))

/-- Model of the commit-hash removal: re.sub of an end-anchored optional
whitespace, a parenthesized run of exactly seven lowercase-hex digits, and
optional trailing whitespace, replaced by nothing.  Only the final such
parenthetical can match because of the end anchor. -/
def stripHash (s : List Char) : List Char :=
  let r := s.reverse.dropWhile isWs
  match r with
  | ')' :: rest =>
    let h := rest.take 7
    let rest2 := rest.drop 7
    match rest2 with
    | '(' :: rest3 =>
      if h.length = 7 ∧ h.all isHexLow then (rest3.dropWhile isWs).reverse
      else s
    | _ => s
  | _ => s

/-- Cleaning applied to one bullet line: strip dashes and spaces from both
ends, strip whitespace, then remove a trailing commit-hash parenthetical. -/
def cleanOf (l : List Char) : List Char :=
  stripHash (pyStrip isWs (pyStrip isDashSpace l))

/-- Test whether a line contains one of the two recognized headings. -/
def lineHasMagic (l : List Char) : Bool :=
  decide (magic1 <:+: l) || decide (magic2 <:+: l)

/-- Test whether a line is a bullet: its stripped form starts with a dash
and a space. -/
def isBullet (l : List Char) : Bool :=
  decide (("- ").toList <+: pyStrip isWs l)

/-- Line loop of parse_release_notes: walk the lines with the in-section
flag, collecting cleaned nonempty bullets, and stop at the first same-level
heading seen while inside the section. -/
def collectNotes : List (List Char) → Bool → List (List Char)
  | [], _ => []
  | l :: ls, inSec =>
    if lineHasMagic l then collectNotes ls true
    else if decide (hashHash <+: l) && inSec then []
    else if inSec && isBullet l then
      let clean := cleanOf l
      if clean = [] then collectNotes ls inSec else clean :: collectNotes ls inSec
    else collectNotes ls inSec

/-- Model of parse_release_notes: none stands for a missing file; the
result is the first five collected notes, or the default sentence when
nothing was collected. -/
def parseReleaseNotes (file : Option (List Char)) : List (List Char) :=
  match file with
  | none => [defaultNote]
  | some content =>
    let notes := collectNotes (splitNl content) false
    if notes = [] then [defaultNote] else notes.take 5

/-- Element-level model of the item built by create_item_element: the text
children in document order and the enclosure attribute list in insertion
order. -/
structure FeedItem where
  title : List Char
  pubDate : List Char
  sparkleVersion : List Char
  shortVersionString : List Char
  description : List Char
  enclosureAttrs : List (List Char × List Char)
  minimumSystemVersion : List Char
deriving DecidableEq

/-- Unordered-list rendering of the notes inside the description. -/
def notesHtmlOf (notes : List (List Char)) : List Char :=
  joinNl (notes.map (fun n => ("                    <li>").toList ++ n ++ ("</li>").toList))

/-- Download URL constructed for the enclosure. -/
def dlUrl (repo version : List Char) : List Char :=
  ("https://github.com/").toList ++ repo ++ ("/releases/download/v").toList ++
    version ++ ("/Quill-").toList ++ version ++ (".dmg").toList

/-- Description text of the item, exactly as the format string builds it. -/
def descriptionOf (repo version : List Char) (notes : List (List Char)) : List Char :=
  ("\n                <h2>What\x27s New in ").toList ++ version ++
  ("</h2>\n                <ul>\n").toList ++ notesHtmlOf notes ++
  ("\n                </ul>\n                <p>See the <a href=\"https://github.com/").toList ++
  repo ++ ("/releases/tag/v").toList ++ version ++
  ("\">full release notes</a> for details.</p>\n            ").toList

/-- Model of create_item_element.  The publication date is a parameter
standing for the formatted current time. -/
def createItemElement (version size : List Char) (notes : List (List Char))
    (repo date : List Char) : FeedItem :=
  { title := ("Version ").toList ++ version
    pubDate := date
    sparkleVersion := version
    shortVersionString := version
    description := descriptionOf repo version notes
    enclosureAttrs :=
      [(("url").toList, dlUrl repo version),
       (("length").toList, size),
       (("type").toList, ("application/octet-stream").toList)]
    minimumSystemVersion := ("14.0").toList }

/-- Character escaping of element text performed by the XML serializer. -/
def escapeText (s : List Char) : List Char :=
  s.flatMap (fun c =>
    if c = '&' then ("&amp;").toList
    else if c = '<' then ("&lt;").toList
    else if c = '>' then ("&gt;").toList
    else [c])

/-- Character escaping of attribute values performed by the XML
serializer. -/
def escapeAttr (s : List Char) : List Char :=
  s.flatMap (fun c =>
    if c = '&' then ("&amp;").toList
    else if c = '<' then ("&lt;").toList
    else if c = '>' then ("&gt;").toList
    else if c = '"' then ("&quot;").toList
    else if c = '\r' then ("&#13;").toList
    else if c = '\n' then ("&#10;").toList
    else if c = '\t' then ("&#09;").toList
    else [c])

/-- Serialization of one child element with escaped text. -/
def elemStr (tag text : List Char) : List Char :=
  ("<").toList ++ tag ++ (">").toList ++ escapeText text ++
  ("</").toList ++ tag ++ (">").toList

/-- Model of the tostring serialization of the item: the namespace
declaration is hoisted onto the root element, children appear in insertion
order, and the enclosure is self-closing with a space before the slash. -/
def itemToString (it : FeedItem) : List Char :=
  ("<item xmlns:ns0=\"http://www.andymatuschak.org/xml-namespaces/sparkle\">").toList ++
  elemStr (("title").toList) it.title ++
  elemStr (("pubDate").toList) it.pubDate ++
  elemStr (("ns0:version").toList) it.sparkleVersion ++
  elemStr (("ns0:shortVersionString").toList) it.shortVersionString ++
  elemStr (("description").toList) it.description ++
  ("<enclosure").toList ++
  (it.enclosureAttrs.flatMap
    (fun kv => [' '] ++ kv.1 ++ ("=\"").toList ++ escapeAttr kv.2 ++ ['"'])) ++
  (" />").toList ++
  elemStr (("ns0:minimumSystemVersion").toList) it.minimumSystemVersion ++
  ("</item>").toList

/-- Reformatting loop of update_appcast: strip each serialized line, drop
empty lines and the bare item tags, re-indent, and wrap in indented item
tags. -/
def formatItem (s : List Char) : List Char :=
  let kept := ((splitNl s).map (pyStrip isWs)).filter
    (fun l => decide (l ≠ [] ∧ l ≠ ("<item>").toList ∧ l ≠ ("</item>").toList))
  joinNl ([("        <item>").toList] ++
    kept.map (fun l => ("            ").toList ++ l) ++
    [("        </item>").toList])

/-- Feed-dialect anchor pattern: end of a comment block, optional
whitespace, a newline, optional whitespace, and another newline. -/
def feedPat : List RAtom :=
  [.lit ("-->").toList, .star isWs, .lit ("\n").toList, .star isWs,
   .lit ("\n").toList]

/-- Full text block inserted for one release: the formatted item followed
by a blank line. -/
def itemBlock (version size : List Char) (notes : List (List Char))
    (repo date : List Char) : List Char :=
  formatItem (itemToString (createItemElement version size notes repo date)) ++
  ("\n\n").toList

/-- Model of update_appcast: insert the new item block right after the
leftmost match of the feed anchor; none models the unsuccessful return
when no insertion point exists, in which case nothing is written. -/
def updateAppcast (content version size : List Char) (notesFile : Option (List Char))
    (repo date : List Char) : Option (List Char) :=
  match reSearch feedPat content with
  | none => none
  | some (i, ns) =>
    some (content.take (i + ns.sum) ++
      itemBlock version size (parseReleaseNotes notesFile) repo date ++
      content.drop (i + ns.sum))

/-- Outcome of the update-appcast command: exit code and written feed. -/
structure UResult where
  exitCode : Nat
  written : Option (List Char)
deriving DecidableEq

/-- Model of the update-appcast main: usage error on fewer than three
positional arguments, missing-feed error, then the update; extra
positional arguments beyond the third are ignored. -/
def mainUpdateAppcast (argv : List (List Char)) (appcastFile : Option (List Char))
    (notesFile : Option (List Char)) (envRepo : Option (List Char))
    (date : List Char) : UResult :=
  if argv.length < 4 then ⟨1, none⟩
  else
    let version := argv.getD 1 []
    let size := argv.getD 2 []
    let repo := envRepo.getD (("zmh/quill").toList)
    match appcastFile with
    | none => ⟨1, none⟩
    | some content =>
      match updateAppcast content version size notesFile repo date with
      | none => ⟨1, none⟩
      | some out => ⟨0, some out⟩

/-!
Derived definitions used by the statements below, and concrete example
documents on which the theorems are instantiated.
-/

/-- Cleaned nonempty bullets of a run of section lines, in their original
order; this is what the line loop collects on a section body that contains
no heading. -/
def sectionNotes (mid : List (List Char)) : List (List Char) :=
  ((mid.filter isBullet).map cleanOf).filter (fun c => decide (c ≠ []))

/-- Index of the last newline in a character list, if any. -/
def lastNl : List Char → Option Nat
  | [] => none
  | c :: t =>
    match lastNl t with
    | some j => some (j + 1)
    | none => if c = '\n' then some 0 else none

/-- Example generated identifier of the package-reference record:
twenty-four uppercase-hex characters. -/
def exU1 : List Char := ("AAAAAAAAAAAAAAAAAAAAAAA1").toList

/-- Example generated identifier of the product-dependency record. -/
def exU2 : List Char := ("BBBBBBBBBBBBBBBBBBBBBBB2").toList

/-- Example project document that passes the three hard anchors but has no
Quill-target dependency list and no project-section run: both optional
sub-steps are skipped on it. -/
def exDocNoDeps : List Char :=
  ("// x\n\x7b\n/* Project object */;\nobjects = \x7b\n/* Quill */ = \x7b\nisa = PBXNativeTarget;\nq;\nproductReference = ABC123;\n\x7d;\n/* Begin PBXProject section */\n\x7d;\n\x7d\n").toList

/-- Example project document whose Quill-target dependency list holds one
space between its parentheses. -/
def exDocWs : List Char :=
  ("\x7b\n/* Project object */;\nobjects = \x7b\n/* Quill */ = \x7b\nisa = PBXNativeTarget;\nq;\nproductReference = AB12;\n\x7d;\n8444F69F2DEB50FA002F0BEA /* Quill */ = \x7b\nq;\npackageProductDependencies = ( );\n\x7d;\n/* Begin PBXProject section */\n\x7d;\n\x7d\n").toList

/-- Example project document on which every anchor of the patcher fires,
with an empty dependency list. -/
def exDocAll : List Char :=
  ("\x7b\n/* Project object */;\nobjects = \x7b\n/* Quill */ = \x7b\nisa = PBXNativeTarget;\nq;\nproductReference = AB12;\n\x7d;\n8444F69F2DEB50FA002F0BEA /* Quill */ = \x7b\nq;\npackageProductDependencies = ();\n\x7d;\n/* Begin PBXProject section */\nprojectDirPath = \"\";\nq;\nprojectRoot = \"\";\nq;\ntargets = (\nt,\n);\n\x7d;\n\x7d\n").toList

/-- Example project document whose Quill-target dependency list holds a
newline and three tabs between its parentheses, the canonical layout. -/
def exDocNl : List Char :=
  ("\x7b\n/* Project object */;\nobjects = \x7b\n/* Quill */ = \x7b\nisa = PBXNativeTarget;\nq;\nproductReference = AB12;\n\x7d;\n8444F69F2DEB50FA002F0BEA /* Quill */ = \x7b\nq;\npackageProductDependencies = (\n\t\t\t);\n\x7d;\n/* Begin PBXProject section */\n\x7d;\n\x7d\n").toList

/-- Example document lacking the Quill target declaration. -/
def exDocNoTarget : List Char := ("// nothing to see here\n").toList

/-- Example feed document: the leading comment block of the channel is
followed by a blank line. -/
def exFeed : List Char :=
  ("<?xml version=\"1.0\" encoding=\"utf-8\"?>\n<rss version=\"2.0\" xmlns:sparkle=\"http://www.andymatuschak.org/xml-namespaces/sparkle\">\n    <channel>\n        <title>Quill</title>\n        <!--\n          New releases are inserted below this comment.\n        -->\n\n    </channel>\n</rss>\n").toList

/-- Example formatted publication date. -/
def exDate : List Char := ("Sun, 12 Oct 2026 00:00:00 +0000").toList

/-- Example release-notes text: eight bullets under the recognized heading,
one non-bullet line among them, and a following same-level heading with a
bullet of its own. -/
def exNotes : List Char :=
  ("# Release v1.0.0\n\n## What\x27s Changed\n- Fix crash on startup (abc1234)\n- Add dark mode\n-  Weird   spacing bullet   (deadbee)\n- Tail dash bullet -\nnot a bullet\n- Fifth item (1234567)\n- Sixth item\n- Seventh item (fffffff)\n- Eighth item\n\n## Installation\n- not counted\n").toList

/-- Lines of the example notes before the recognized heading. -/
def exPre : List (List Char) := [("# Release v1.0.0").toList, []]

/-- Recognized heading line of the example notes. -/
def exHl : List Char := ("## What\x27s Changed").toList

/-- Section body of the example notes: the lines between the recognized
heading and the next same-level heading. -/
def exMid : List (List Char) :=
  [("- Fix crash on startup (abc1234)").toList,
   ("- Add dark mode").toList,
   ("-  Weird   spacing bullet   (deadbee)").toList,
   ("- Tail dash bullet -").toList,
   ("not a bullet").toList,
   ("- Fifth item (1234567)").toList,
   ("- Sixth item").toList,
   ("- Seventh item (fffffff)").toList,
   ("- Eighth item").toList,
   []]

/-- Stopping heading line of the example notes. -/
def exSl : List Char := ("## Installation").toList

/-- Lines of the example notes after the stopping heading. -/
def exPost : List (List Char) := [("- not counted").toList, []]

/-- Example argument vector of the feed updater, without a signature
argument. -/
def exArgv : List (List Char) :=
  [("./Scripts/update-appcast.py").toList, ("1.0.0").toList, ("100").toList,
   ("notes.md").toList]

/-- Example argument vector with a trailing signature argument. -/
def exArgvSig : List (List Char) := exArgv ++ [("SIGVALUE").toList]

/-!
Generic lemmas about the matcher.
-/

/-- Semantic reading of one pattern atom against the segment of text it
consumed. -/
def AtomMatches : RAtom → List Char → Prop
  | .lit s, seg => seg = s
  | .one p, seg => ∃ c, seg = [c] ∧ p c
  | .star p, seg => ∀ c ∈ seg, p c
  | .plus p, seg => seg ≠ [] ∧ ∀ c ∈ seg, p c

theorem take_all_of_le_takeWhile {p : Char → Bool} {l : List Char} {j : Nat}
    (h : j ≤ (l.takeWhile p).length) : ∀ c ∈ l.take j, p c := by
  intro c hc
  have h1 : l.take j = (l.takeWhile p).take j := by
    conv_lhs => rw [← @List.takeWhile_append_dropWhile _ p l]
    exact List.take_append_of_le_length h
  rw [h1] at hc
  exact List.mem_takeWhile_imp (List.mem_of_mem_take hc)

theorem prefix_all_le_takeWhile {p : Char → Bool} {seg l : List Char}
    (hp : seg <+: l) (hall : ∀ c ∈ seg, p c) :
    seg.length ≤ (l.takeWhile p).length := by
  induction seg generalizing l with
  | nil => simp
  | cons c s ih =>
    obtain ⟨r, rfl⟩ := hp
    have hc : p c := hall c (by simp)
    simp only [List.cons_append, List.takeWhile_cons, hc]
    have hpre : s <+: s ++ r := ⟨r, rfl⟩
    have := ih hpre (fun d hd => hall d (by simp [hd]))
    simpa using this

theorem tryDown_some_elim {f : List Char → Option (List Nat)} {cs : List Char}
    {lo k j : Nat} {ns : List Nat}
    (h : tryDown f cs lo k = some (j, ns)) :
    f (cs.drop j) = some ns ∧ j ≤ k ∧ (lo ≤ k → lo ≤ j) ∧
      ∀ j', j < j' → j' ≤ k → f (cs.drop j') = none := by
  induction k with
  | zero =>
    rw [tryDown] at h
    rcases hf : f (cs.drop 0) with _ | v
    · rw [hf] at h
      cases h
    · rw [hf] at h
      simp only [Option.some.injEq, Prod.mk.injEq] at h
      obtain ⟨rfl, rfl⟩ := h
      exact ⟨hf, Nat.le_refl _, fun hl => hl, fun j' h1 h2 => by omega⟩
  | succ k ih =>
    rw [tryDown] at h
    rcases hf : f (cs.drop (k + 1)) with _ | v
    · rw [hf] at h
      by_cases hkl : k + 1 ≤ lo
      · rw [if_pos hkl] at h
        cases h
      · rw [if_neg hkl] at h
        obtain ⟨h1, h2, h3, h4⟩ := ih h
        refine ⟨h1, by omega, fun _ => h3 (by omega), fun j' hj1 hj2 => ?_⟩
        rcases Nat.lt_or_ge j' (k + 1) with h' | h'
        · exact h4 j' hj1 (by omega)
        · have hjk : j' = k + 1 := by omega
          rw [hjk]
          exact hf
    · rw [hf] at h
      simp only [Option.some.injEq, Prod.mk.injEq] at h
      obtain ⟨rfl, rfl⟩ := h
      exact ⟨hf, Nat.le_refl _, fun hl => hl, fun j' hj1 hj2 => by omega⟩

theorem tryDown_some_intro {f : List Char → Option (List Nat)} {cs : List Char}
    {lo k j : Nat} {ns : List Nat}
    (hlo : lo ≤ j) (hk : j ≤ k) (hf : f (cs.drop j) = some ns)
    (hmax : ∀ j', j < j' → j' ≤ k → f (cs.drop j') = none) :
    tryDown f cs lo k = some (j, ns) := by
  induction k with
  | zero =>
    have hj0 : j = 0 := by omega
    subst hj0
    rw [tryDown, hf]
  | succ k ih =>
    rw [tryDown]
    rcases Nat.lt_or_ge j (k + 1) with h | h
    · rw [hmax (k + 1) h (Nat.le_refl _)]
      rw [if_neg (by omega)]
      exact ih (by omega) (fun j' h1 h2 => hmax j' h1 (by omega))
    · have hjk : j = k + 1 := by omega
      subst hjk
      rw [hf]

theorem tryDown_ne_none {f : List Char → Option (List Nat)} {cs : List Char}
    {lo k j : Nat} {ns : List Nat}
    (hlo : lo ≤ j) (hk : j ≤ k) (hf : f (cs.drop j) = some ns) :
    tryDown f cs lo k ≠ none := by
  induction k with
  | zero =>
    have hj0 : j = 0 := by omega
    subst hj0
    rw [tryDown, hf]
    simp
  | succ k ih =>
    rw [tryDown]
    rcases hfk : f (cs.drop (k + 1)) with _ | v
    · rcases Nat.lt_or_ge j (k + 1) with h | h
      · rw [if_neg (by omega)]
        exact ih (by omega)
      · have hjk : j = k + 1 := by omega
        subst hjk
        rw [hf] at hfk
        cases hfk
    · simp

theorem prefix_append_split {a b cs : List Char} (h : a ++ b <+: cs) :
    a <+: cs ∧ b <+: cs.drop a.length := by
  obtain ⟨r, hr⟩ := h
  subst hr
  constructor
  · exact ⟨b ++ r, by simp⟩
  · rw [List.append_assoc, List.drop_left]
    exact ⟨r, rfl⟩

theorem matchSeq_sound {pats : List RAtom} {cs : List Char} {ns : List Nat}
    (h : matchSeq pats cs = some ns) :
    ∃ segs : List (List Char), List.Forall₂ AtomMatches pats segs ∧
      ns = segs.map List.length ∧ segs.flatten <+: cs := by
  induction pats generalizing cs ns with
  | nil =>
    rw [matchSeq] at h
    cases h
    exact ⟨[], .nil, rfl, by simp⟩
  | cons a rest ih =>
    cases a with
    | lit s =>
      rw [matchSeq] at h
      by_cases hp : s <+: cs
      · rw [if_pos hp] at h
        rcases hm : matchSeq rest (cs.drop s.length) with _ | ns'
        · rw [hm] at h
          cases h
        · rw [hm] at h
          simp only [Option.map_some', Option.some.injEq] at h
          subst h
          obtain ⟨segs, h1, h2, h3⟩ := ih hm
          refine ⟨s :: segs, .cons rfl h1, by simp [h2], ?_⟩
          obtain ⟨r, hr⟩ := hp
          rw [← hr] at h3 ⊢
          rw [List.drop_left] at h3
          simp only [List.flatten_cons]
          exact (List.prefix_append_right_inj s).mpr h3
      · rw [if_neg hp] at h
        cases h
    | one p =>
      rcases cs with _ | ⟨c, t⟩
      · rw [matchSeq] at h
        cases h
      · rw [matchSeq] at h
        by_cases hp : p c
        · simp only [hp, if_true] at h
          rcases hm : matchSeq rest t with _ | ns'
          · rw [hm] at h
            cases h
          · rw [hm] at h
            simp only [Option.map_some', Option.some.injEq] at h
            subst h
            obtain ⟨segs, h1, h2, h3⟩ := ih hm
            refine ⟨[c] :: segs, .cons ⟨c, rfl, hp⟩ h1, by simp [h2], ?_⟩
            simpa using h3
        · rw [if_neg hp] at h
          cases h
    | star p =>
      rw [matchSeq] at h
      rcases htd : tryDown (fun v => matchSeq rest v) cs 0 (cs.takeWhile p).length
        with _ | ⟨k, ns'⟩
      · rw [htd] at h
        cases h
      · rw [htd] at h
        simp only [Option.map_some', Option.some.injEq] at h
        subst h
        obtain ⟨hf, hk, _, _⟩ := tryDown_some_elim htd
        obtain ⟨segs, h1, h2, h3⟩ := ih hf
        have hkcs : k ≤ cs.length :=
          le_trans hk (List.Sublist.length_le (List.takeWhile_sublist p))
        refine ⟨cs.take k :: segs, .cons ?_ h1, ?_, ?_⟩
        · exact fun c hc => take_all_of_le_takeWhile hk c hc
        · simp [h2, List.length_take, Nat.min_eq_left hkcs]
        · simp only [List.flatten_cons]
          conv_rhs => rw [← List.take_append_drop k cs]
          exact (List.prefix_append_right_inj (cs.take k)).mpr h3
    | plus p =>
      rw [matchSeq] at h
      by_cases hm0 : (cs.takeWhile p).length = 0
      · simp only [hm0, if_true] at h
        cases h
      · simp only [hm0, if_false] at h
        rcases htd : tryDown (fun v => matchSeq rest v) cs 1 (cs.takeWhile p).length
          with _ | ⟨k, ns'⟩
        · rw [htd] at h
          cases h
        · rw [htd] at h
          simp only [Option.map_some', Option.some.injEq] at h
          subst h
          obtain ⟨hf, hk, hge, _⟩ := tryDown_some_elim htd
          have hk1 : 1 ≤ k := hge (by omega)
          obtain ⟨segs, h1, h2, h3⟩ := ih hf
          have hkcs : k ≤ cs.length :=
            le_trans hk (List.Sublist.length_le (List.takeWhile_sublist p))
          refine ⟨cs.take k :: segs, .cons ⟨?_, ?_⟩ h1, ?_, ?_⟩
          · intro hempty
            have := congrArg List.length hempty
            simp [List.length_take, Nat.min_eq_left hkcs] at this
            omega
          · exact fun c hc => take_all_of_le_takeWhile hk c hc
          · simp [h2, List.length_take, Nat.min_eq_left hkcs]
          · simp only [List.flatten_cons]
            conv_rhs => rw [← List.take_append_drop k cs]
            exact (List.prefix_append_right_inj (cs.take k)).mpr h3

theorem matchSeq_complete {pats : List RAtom} {segs : List (List Char)} {cs : List Char}
    (hf : List.Forall₂ AtomMatches pats segs) (hp : segs.flatten <+: cs) :
    matchSeq pats cs ≠ none := by
  induction hf generalizing cs with
  | nil =>
    rw [matchSeq]
    simp
  | @cons a seg pats' segs' ha hrest ih =>
    simp only [List.flatten_cons] at hp
    obtain ⟨hp1, hp2⟩ := prefix_append_split hp
    cases a with
    | lit s =>
      have hseg : seg = s := ha
      subst hseg
      rw [matchSeq, if_pos hp1]
      intro hcon
      rcases hmm : matchSeq pats' (cs.drop seg.length) with _ | v
      · exact ih hp2 hmm
      · rw [hmm] at hcon
        cases hcon
    | one p =>
      obtain ⟨c, rfl, hpc⟩ := ha
      obtain ⟨r, hr⟩ := hp1
      rcases cs with _ | ⟨c', t⟩
      · cases hr
      · rw [List.singleton_append] at hr
        injection hr with hr1 hr2
        subst hr1
        subst hr2
        rw [matchSeq]
        simp only [hpc, if_true]
        intro hcon
        rcases hmm : matchSeq pats' r with _ | v
        · exact ih (by simpa using hp2) hmm
        · rw [hmm] at hcon
          cases hcon
    | star p =>
      have hall : ∀ c ∈ seg, p c := ha
      have hlen : seg.length ≤ (cs.takeWhile p).length :=
        prefix_all_le_takeWhile hp1 hall
      rw [matchSeq]
      intro hcon
      rcases hmm : matchSeq pats' (cs.drop seg.length) with _ | v
      · exact ih hp2 hmm
      · have := tryDown_ne_none (Nat.zero_le _) hlen hmm
        rcases htd : tryDown (fun v => matchSeq pats' v) cs 0 (cs.takeWhile p).length
          with _ | w
        · exact this htd
        · rw [htd] at hcon
          cases hcon
    | plus p =>
      obtain ⟨hne, hall⟩ := ha
      have hlen : seg.length ≤ (cs.takeWhile p).length :=
        prefix_all_le_takeWhile hp1 hall
      have h1 : 1 ≤ seg.length := by
        cases seg
        · exact absurd rfl hne
        · simp
      rw [matchSeq]
      simp only [show ¬ ((cs.takeWhile p).length = 0) from by omega, if_false]
      intro hcon
      rcases hmm : matchSeq pats' (cs.drop seg.length) with _ | v
      · exact ih hp2 hmm
      · have := tryDown_ne_none h1 hlen hmm
        rcases htd : tryDown (fun v => matchSeq pats' v) cs 1 (cs.takeWhile p).length
          with _ | w
        · exact this htd
        · rw [htd] at hcon
          cases hcon

theorem searchFrom_some_elim {pat : List RAtom} {cs : List Char} {i j : Nat}
    {ns : List Nat} (h : searchFrom pat cs i = some (j, ns)) :
    i ≤ j ∧ j - i ≤ cs.length ∧ matchSeq pat (cs.drop (j - i)) = some ns ∧
      ∀ d, d < j - i → matchSeq pat (cs.drop d) = none := by
  induction cs generalizing i with
  | nil =>
    rw [searchFrom] at h
    rcases hm : matchSeq pat [] with _ | v
    · rw [hm] at h
      cases h
    · rw [hm] at h
      simp only [Option.some.injEq, Prod.mk.injEq] at h
      obtain ⟨rfl, rfl⟩ := h
      simpa using hm
  | cons c t ih =>
    rw [searchFrom] at h
    rcases hm : matchSeq pat (c :: t) with _ | v
    · rw [hm] at h
      obtain ⟨h1, h2, h3, h4⟩ := ih h
      have hij : i + 1 ≤ j := h1
      refine ⟨by omega, by simp; omega, ?_, ?_⟩
      · have : (c :: t).drop (j - i) = t.drop (j - (i + 1)) := by
          have : j - i = (j - (i + 1)) + 1 := by omega
          simp [this]
        rw [this]
        exact h3
      · intro d hd
        rcases d with _ | d'
        · simpa using hm
        · have : (c :: t).drop (d' + 1) = t.drop d' := by simp
          rw [this]
          exact h4 d' (by omega)
    · rw [hm] at h
      simp only [Option.some.injEq, Prod.mk.injEq] at h
      obtain ⟨rfl, rfl⟩ := h
      simpa using hm

theorem searchFrom_some_intro {pat : List RAtom} {cs : List Char} {i d : Nat}
    {ns : List Nat} (hd : matchSeq pat (cs.drop d) = some ns)
    (hless : ∀ d' < d, matchSeq pat (cs.drop d') = none) (hdl : d ≤ cs.length) :
    searchFrom pat cs i = some (i + d, ns) := by
  induction cs generalizing i d with
  | nil =>
    have hd0 : d = 0 := by simpa using hdl
    subst hd0
    rw [searchFrom]
    simp only [List.drop_nil] at hd
    rw [hd]
    simp
  | cons c t ih =>
    rcases d with _ | d'
    · rw [searchFrom]
      simp only [List.drop_zero] at hd
      rw [hd]
      simp
    · have h0 : matchSeq pat (c :: t) = none := by
        have := hless 0 (by omega)
        simpa using this
      rw [searchFrom, h0]
      have hrec := @ih (i + 1) d' (by simpa using hd)
        (fun d'' hd'' => by
          have := hless (d'' + 1) (by omega)
          simpa using this)
        (by
          have h' : d' + 1 ≤ t.length + 1 := by simpa using hdl
          omega)
      rw [hrec]
      have harith : i + 1 + d' = i + (d' + 1) := by omega
      rw [harith]

theorem reSearch_some_elim {pat : List RAtom} {content : List Char} {i : Nat}
    {ns : List Nat} (h : reSearch pat content = some (i, ns)) :
    i ≤ content.length ∧ matchSeq pat (content.drop i) = some ns ∧
      ∀ d, d < i → matchSeq pat (content.drop d) = none := by
  obtain ⟨h1, h2, h3, h4⟩ := searchFrom_some_elim h
  simpa using ⟨h2, h3, h4⟩

theorem reSearch_some_intro {pat : List RAtom} {content : List Char} {d : Nat}
    {ns : List Nat} (hd : matchSeq pat (content.drop d) = some ns)
    (hless : ∀ d' < d, matchSeq pat (content.drop d') = none)
    (hdl : d ≤ content.length) : reSearch pat content = some (d, ns) := by
  have := @searchFrom_some_intro pat content 0 d ns hd hless hdl
  simpa using this

/-!
Lemmas about the model of str.replace.  They describe when an infix of the
subject string survives the replacement of every occurrence of x.
-/

/-- Overlap condition: no proper nonempty prefix of m is a suffix of x. -/
def NoPrefOv (m x : List Char) : Prop :=
  ∀ k, 0 < k → k < m.length → ¬ (m.take k <:+ x)

/-- Overlap condition: no nonempty suffix of m is a prefix of x. -/
def NoTailPre (m x : List Char) : Prop :=
  ∀ k, k < m.length → ¬ (m.drop k <+: x)

/-- Occurrence condition: x occurs inside m only as a suffix of m. -/
def NoMidOcc (m x : List Char) : Prop :=
  ∀ k, k + x.length < m.length → ¬ (x <+: m.drop k)

theorem pyReplaceAuxF_congr {x y : List Char} :
    ∀ {n m : Nat} {s : List Char}, s.length ≤ n → s.length ≤ m →
      pyReplaceAuxF x y n s = pyReplaceAuxF x y m s := by
  intro n
  induction n with
  | zero =>
    intro m s hn hm
    have hs : s = [] := by
      cases s
      · rfl
      · simp at hn
    subst hs
    cases m <;> rfl
  | succ n ih =>
    intro m s hn hm
    cases s with
    | nil => cases m <;> rfl
    | cons c t =>
      rcases m with _ | m'
      · simp at hm
      · rw [pyReplaceAuxF, pyReplaceAuxF]
        by_cases hp : x <+: c :: t
        · rw [if_pos hp, if_pos hp]
          have hd : (List.drop (x.length - 1) t).length ≤ n := by
            have := List.length_drop (x.length - 1) t
            simp only [List.length_cons] at hn
            omega
          have hd' : (List.drop (x.length - 1) t).length ≤ m' := by
            have := List.length_drop (x.length - 1) t
            simp only [List.length_cons] at hm
            omega
          rw [ih hd hd']
        · rw [if_neg hp, if_neg hp]
          have ht : t.length ≤ n := by
            simp only [List.length_cons] at hn
            omega
          have ht' : t.length ≤ m' := by
            simp only [List.length_cons] at hm
            omega
          rw [ih ht ht']

theorem pyReplaceAux_nil_eq {x y : List Char} : pyReplaceAux x y [] = [] := rfl

theorem pyReplaceAux_cons_pos {x y : List Char} {c : Char} {t : List Char}
    (h : x <+: c :: t) :
    pyReplaceAux x y (c :: t) = y ++ pyReplaceAux x y (List.drop (x.length - 1) t) := by
  rw [pyReplaceAux, pyReplaceAux]
  simp only [List.length_cons]
  rw [pyReplaceAuxF, if_pos h]
  congr 1
  refine pyReplaceAuxF_congr ?_ (Nat.le_refl _)
  have := List.length_drop (x.length - 1) t
  omega

theorem pyReplaceAux_cons_neg {x y : List Char} {c : Char} {t : List Char}
    (h : ¬ x <+: c :: t) :
    pyReplaceAux x y (c :: t) = c :: pyReplaceAux x y t := by
  rw [pyReplaceAux, pyReplaceAux]
  simp only [List.length_cons]
  rw [pyReplaceAuxF, if_neg h]

theorem pyReplaceAux_ind (x : List Char) (motive : List Char → Prop)
    (h1 : motive [])
    (h2 : ∀ c t, x <+: c :: t → motive (List.drop (x.length - 1) t) → motive (c :: t))
    (h3 : ∀ c t, ¬ x <+: c :: t → motive t → motive (c :: t)) :
    ∀ s, motive s := by
  have hmain : ∀ n s, List.length s ≤ n → motive s := by
    intro n
    induction n with
    | zero =>
      intro s hs
      cases s with
      | nil => exact h1
      | cons c t => simp at hs
    | succ n ih =>
      intro s hs
      cases s with
      | nil => exact h1
      | cons c t =>
        by_cases hp : x <+: c :: t
        · refine h2 c t hp (ih _ ?_)
          have := List.length_drop (x.length - 1) t
          simp only [List.length_cons] at hs
          omega
        · refine h3 c t hp (ih t ?_)
          simp only [List.length_cons] at hs
          omega
  exact fun s => hmain s.length s (Nat.le_refl _)

theorem cons_eq_append_drop {x : List Char} {c : Char} {t : List Char}
    (hx : x ≠ []) (h : x <+: c :: t) :
    c :: t = x ++ List.drop (x.length - 1) t := by
  obtain ⟨r, hr⟩ := h
  have hdrop : List.drop (x.length - 1) t = r := by
    have h2 := congrArg (List.drop x.length) hr
    rw [List.drop_left] at h2
    cases x with
    | nil => exact absurd rfl hx
    | cons a x' =>
      simp only [List.length_cons, List.drop_succ_cons] at h2
      simpa using h2.symm
  rw [hdrop, hr]

theorem infix_append_cases {m a b : List Char} (h : m <:+: a ++ b) :
    m <:+: a ∨ m <:+: b ∨
      ∃ m₁ m₂, m = m₁ ++ m₂ ∧ m₁ ≠ [] ∧ m₂ ≠ [] ∧ m₁ <:+ a ∧ m₂ <+: b := by
  obtain ⟨s, t, hst⟩ := h
  rw [List.append_assoc] at hst
  rcases List.append_eq_append_iff.mp hst with ⟨a', ha1, ha2⟩ | ⟨c', hc1, hc2⟩
  · rcases List.append_eq_append_iff.mp ha2 with ⟨w, hw1, hw2⟩ | ⟨w, hw1, hw2⟩
    · left
      rw [ha1, hw1]
      exact ⟨s, w, by simp⟩
    · rcases eq_or_ne w [] with rfl | hwne
      · left
        rw [List.append_nil] at hw1
        rw [ha1, ← hw1]
        exact ⟨s, [], by simp⟩
      · rcases eq_or_ne a' [] with rfl | hane
        · right
          left
          rw [List.nil_append] at hw1
          rw [hw2, ← hw1]
          exact ⟨[], t, by simp⟩
        · right
          right
          exact ⟨a', w, hw1, hane, hwne, by rw [ha1]; exact ⟨s, rfl⟩,
            by rw [hw2]; exact ⟨t, rfl⟩⟩
  · right
    left
    rw [hc2]
    exact ⟨c', t, List.append_assoc c' m t⟩

theorem pyReplaceAux_prefix_pres {x y m : List Char} (hx : x ≠ [])
    (hxin : ¬ x <:+: m) (htp : NoTailPre m x) :
    ∀ s m₂, m₂ <:+ m → m₂ <+: s → m₂ <+: pyReplaceAux x y s := by
  intro s
  refine pyReplaceAux_ind x
    (fun s => ∀ m₂, m₂ <:+ m → m₂ <+: s → m₂ <+: pyReplaceAux x y s) ?_ ?_ ?_ s
  · intro m₂ _ hp
    have h0 : m₂ = [] := List.prefix_nil.mp hp
    subst h0
    exact List.nil_prefix
  · intro c t hocc ih m₂ hsuf hp
    rw [pyReplaceAux_cons_pos hocc]
    rcases eq_or_ne m₂ [] with rfl | hne
    · exact List.nil_prefix
    rcases le_or_lt m₂.length x.length with hle | hlt
    · have hm2x : m₂ <+: x := List.prefix_of_prefix_length_le hp hocc hle
      have hlen1 : m₂.length ≤ m.length := hsuf.length_le
      have hlen2 : 0 < m₂.length := List.length_pos.mpr hne
      have hk : m.length - m₂.length < m.length := by omega
      have hdropeq : m.drop (m.length - m₂.length) = m₂ :=
        (List.suffix_iff_eq_drop.mp hsuf).symm
      have hcontra : m.drop (m.length - m₂.length) <+: x := by
        rw [hdropeq]
        exact hm2x
      exact absurd hcontra (htp _ hk)
    · have hxm2 : x <+: m₂ := List.prefix_of_prefix_length_le hocc hp (by omega)
      exact absurd (List.infix_iff_prefix_suffix.mpr ⟨m₂, hxm2, hsuf⟩) hxin
  · intro c t hocc ih m₂ hsuf hp
    rw [pyReplaceAux_cons_neg hocc]
    rcases m₂ with _ | ⟨c', m₂'⟩
    · exact List.nil_prefix
    · obtain ⟨r, hr⟩ := hp
      rw [List.cons_append] at hr
      injection hr with h1 h2
      subst h1
      have hsuf' : m₂' <:+ m := (List.suffix_cons c' m₂').trans hsuf
      exact List.cons_prefix_cons.mpr ⟨rfl, ih m₂' hsuf' ⟨r, h2⟩⟩

theorem pyReplaceAux_infix_pres {x y m : List Char} (hx : x ≠ [])
    (hmin : ¬ m <:+: x) (hxin : ¬ x <:+: m) (hpo : NoPrefOv m x)
    (htp : NoTailPre m x) :
    ∀ s, m <:+: s → m <:+: pyReplaceAux x y s := by
  intro s
  refine pyReplaceAux_ind x
    (fun s => m <:+: s → m <:+: pyReplaceAux x y s) ?_ ?_ ?_ s
  · intro hm
    have h0 : m = [] := List.infix_nil.mp hm
    subst h0
    exact absurd List.nil_infix hmin
  · intro c t hocc ih hm
    rw [pyReplaceAux_cons_pos hocc]
    rw [cons_eq_append_drop hx hocc] at hm
    rcases infix_append_cases hm with h | h | ⟨m₁, m₂, hsplit, hne1, hne2, hsfx, hpfx⟩
    · exact absurd h hmin
    · exact (ih h).trans (List.suffix_append y _).isInfix
    · have hk1 : 0 < m₁.length := List.length_pos.mpr hne1
      have hk2 : m₁.length < m.length := by
        rw [hsplit, List.length_append]
        have := List.length_pos.mpr hne2
        omega
      have := hpo m₁.length hk1 hk2
      rw [hsplit, List.take_left] at this
      exact absurd hsfx this
  · intro c t hocc ih hm
    rw [pyReplaceAux_cons_neg hocc]
    rcases List.infix_cons_iff.mp hm with h | h
    · have hpres := pyReplaceAux_prefix_pres (y := y) hx hxin htp (c :: t) m
        (List.suffix_refl m) h
      rw [pyReplaceAux_cons_neg hocc] at hpres
      exact hpres.isInfix
    · exact List.infix_cons (ih h)

theorem pyReplaceAux_prefix_pres_ins {x e m : List Char} (hx : x ≠ [])
    (hmid : NoMidOcc m x) :
    ∀ s m₂, m₂ <:+ m → m₂ <+: s → m₂ <+: pyReplaceAux x (x ++ e) s := by
  intro s
  refine pyReplaceAux_ind x
    (fun s => ∀ m₂, m₂ <:+ m → m₂ <+: s → m₂ <+: pyReplaceAux x (x ++ e) s) ?_ ?_ ?_ s
  · intro m₂ _ hp
    have h0 : m₂ = [] := List.prefix_nil.mp hp
    subst h0
    exact List.nil_prefix
  · intro c t hocc ih m₂ hsuf hp
    rw [pyReplaceAux_cons_pos hocc]
    rcases le_or_lt m₂.length x.length with hle | hlt
    · have hm2x : m₂ <+: x := List.prefix_of_prefix_length_le hp hocc hle
      rw [List.append_assoc]
      exact hm2x.trans (List.prefix_append x _)
    · have hxm2 : x <+: m₂ := List.prefix_of_prefix_length_le hocc hp (by omega)
      obtain ⟨m₃, rfl⟩ := hxm2
      have hm3 : m₃ ≠ [] := by
        intro h0
        rw [h0, List.append_nil] at hlt
        omega
      obtain ⟨m₁, hm1⟩ := hsuf
      have hdrop : m.drop m₁.length = x ++ m₃ := by
        rw [← hm1, List.drop_left]
      have hklt : m₁.length + x.length < m.length := by
        rw [← hm1]
        simp only [List.length_append]
        have := List.length_pos.mpr hm3
        omega
      have hxpref : x <+: m.drop m₁.length := by
        rw [hdrop]
        exact ⟨m₃, rfl⟩
      exact absurd hxpref (hmid m₁.length hklt)
  · intro c t hocc ih m₂ hsuf hp
    rw [pyReplaceAux_cons_neg hocc]
    rcases m₂ with _ | ⟨c', m₂'⟩
    · exact List.nil_prefix
    · obtain ⟨r, hr⟩ := hp
      rw [List.cons_append] at hr
      injection hr with h1 h2
      subst h1
      have hsuf' : m₂' <:+ m := (List.suffix_cons c' m₂').trans hsuf
      exact List.cons_prefix_cons.mpr ⟨rfl, ih m₂' hsuf' ⟨r, h2⟩⟩

theorem pyReplaceAux_infix_pres_ins {x e m : List Char} (hx : x ≠ [])
    (hpo : NoPrefOv m x) (hmid : NoMidOcc m x) :
    ∀ s, m <:+: s → m <:+: pyReplaceAux x (x ++ e) s := by
  intro s
  refine pyReplaceAux_ind x
    (fun s => m <:+: s → m <:+: pyReplaceAux x (x ++ e) s) ?_ ?_ ?_ s
  · intro hm
    have h0 : m = [] := List.infix_nil.mp hm
    subst h0
    exact List.nil_infix
  · intro c t hocc ih hm
    rw [pyReplaceAux_cons_pos hocc]
    rw [cons_eq_append_drop hx hocc] at hm
    rcases infix_append_cases hm with h | h | ⟨m₁, m₂, hsplit, hne1, hne2, hsfx, hpfx⟩
    · refine h.trans ?_
      rw [List.append_assoc]
      exact (List.prefix_append x _).isInfix
    · exact (ih h).trans (List.suffix_append (x ++ e) _).isInfix
    · have hk1 : 0 < m₁.length := List.length_pos.mpr hne1
      have hk2 : m₁.length < m.length := by
        rw [hsplit, List.length_append]
        have := List.length_pos.mpr hne2
        omega
      have := hpo m₁.length hk1 hk2
      rw [hsplit, List.take_left] at this
      exact absurd hsfx this
  · intro c t hocc ih hm
    rw [pyReplaceAux_cons_neg hocc]
    rcases List.infix_cons_iff.mp hm with h | h
    · have hpres := pyReplaceAux_prefix_pres_ins (e := e) hx hmid (c :: t) m
        (List.suffix_refl m) h
      rw [pyReplaceAux_cons_neg hocc] at hpres
      exact hpres.isInfix
    · exact List.infix_cons (ih h)

theorem pyReplaceAux_y_occurs {x y : List Char} (hx : x ≠ []) :
    ∀ s, x <:+: s → y <:+: pyReplaceAux x y s := by
  intro s
  refine pyReplaceAux_ind x
    (fun s => x <:+: s → y <:+: pyReplaceAux x y s) ?_ ?_ ?_ s
  · intro hm
    exact absurd (List.infix_nil.mp hm) hx
  · intro c t hocc ih _
    rw [pyReplaceAux_cons_pos hocc]
    exact (List.prefix_append y _).isInfix
  · intro c t hocc ih hm
    rw [pyReplaceAux_cons_neg hocc]
    rcases List.infix_cons_iff.mp hm with h | h
    · obtain ⟨r, hr⟩ := h
      exact absurd ⟨r, hr⟩ hocc
    · exact List.infix_cons (ih h)

theorem pyReplaceAux_sublist {x y : List Char} (hx : x ≠ []) (hsub : x.Sublist y) :
    ∀ s : List Char, List.Sublist s (pyReplaceAux x y s) := by
  intro s
  refine pyReplaceAux_ind x
    (fun s : List Char => List.Sublist s (pyReplaceAux x y s)) ?_ ?_ ?_ s
  · simp [pyReplaceAux]
  · intro c t hocc ih
    rw [pyReplaceAux_cons_pos hocc]
    conv_lhs => rw [cons_eq_append_drop hx hocc]
    exact List.Sublist.append hsub ih
  · intro c t hocc ih
    rw [pyReplaceAux_cons_neg hocc]
    exact List.Sublist.cons₂ c ih

theorem pyReplace_eq_aux {s x y : List Char} (hx : x ≠ []) :
    pyReplace s x y = pyReplaceAux x y s := by
  rw [pyReplace, if_neg hx]

/-!
Discharge helpers for the overlap conditions, and extraction of structural
facts about matched strings from the per-pattern soundness statement.
-/

theorem getLast?_append_of_some {l l' : List Char} {a : Char}
    (h : l'.getLast? = some a) : (l ++ l').getLast? = some a := by
  rw [List.getLast?_append, h]
  rfl

theorem head?_append_of_some {l l' : List Char} {a : Char}
    (h : l.head? = some a) : (l ++ l').head? = some a := by
  cases l
  · cases h
  · simpa using h

theorem noPrefOv_of_getLast {m x : List Char} {a : Char}
    (hlast : x.getLast? = some a) (hnotin : a ∉ m) : NoPrefOv m x := by
  intro k hk1 hk2 hsfx
  obtain ⟨u, hu⟩ := hsfx
  have hne : m.take k ≠ [] := by
    intro h0
    have hlen := congrArg List.length h0
    simp only [List.length_take, List.length_nil] at hlen
    omega
  rcases hgl : (m.take k).getLast? with _ | b
  · exact hne (List.getLast?_eq_none_iff.mp hgl)
  · have hxa : x.getLast? = some b := by
      rw [← hu]
      exact getLast?_append_of_some hgl
    rw [hlast] at hxa
    injection hxa with hba
    subst hba
    exact hnotin (List.mem_of_mem_take (List.mem_of_mem_getLast? (by rw [hgl]; rfl)))

theorem noTailPre_of_head {m x : List Char} {a : Char}
    (hhead : x.head? = some a) (hnotin : a ∉ m) : NoTailPre m x := by
  intro k hk hp
  obtain ⟨r, hr⟩ := hp
  rcases hd : m.drop k with _ | ⟨c, t⟩
  · have hlen := congrArg List.length hd
    simp only [List.length_drop, List.length_nil] at hlen
    omega
  · rw [hd] at hr
    rw [← hr] at hhead
    simp only [List.cons_append, List.head?_cons, Option.some.injEq] at hhead
    subst hhead
    exact hnotin (List.mem_of_mem_drop (by rw [hd]; exact List.mem_cons_self c t))

theorem noMidOcc_of_le {m x : List Char} (h : m.length ≤ x.length) :
    NoMidOcc m x := by
  intro k hk _
  omega

theorem noMidOcc_of_mem_notin {m x : List Char} {a : Char} (hax : a ∈ x)
    (ham : a ∉ m) : NoMidOcc m x := by
  intro k _ hp
  exact ham (List.mem_of_mem_drop (hp.subset hax))

/-- When x ends in the two characters a and b, with a absent from m and b
different from the head of m, no proper nonempty prefix of m is a suffix
of x. -/
theorem noPrefOv_of_last_two {m x g : List Char} {a b : Char}
    (hx : x = g ++ [a, b]) (ha : a ∉ m) (hb : m.head? ≠ some b) :
    NoPrefOv m x := by
  intro k hk1 hk2 hsfx
  have hlen : (m.take k).length = k := by
    rw [List.length_take]
    omega
  rcases Nat.lt_or_ge k 2 with h2 | h2
  · have hk : k = 1 := by omega
    subst hk
    rcases m with _ | ⟨c, t⟩
    · simp at hk2
    · have ht1 : (c :: t).take 1 = [c] := rfl
      rw [ht1] at hsfx
      obtain ⟨u, hu⟩ := hsfx
      have hxc : x.getLast? = some c := by
        rw [← hu]
        exact getLast?_append_of_some rfl
      have hxb : x.getLast? = some b := by
        rw [hx]
        exact getLast?_append_of_some rfl
      rw [hxc] at hxb
      injection hxb with hcb
      exact hb (by rw [List.head?_cons, hcb])
  · have hab : ([a, b] : List Char) <:+ x := by
      rw [hx]
      exact ⟨g, rfl⟩
    have hlen2 : ([a, b] : List Char).length ≤ (m.take k).length := by
      rw [hlen]
      simp only [List.length_cons, List.length_nil]
      omega
    have hsub := List.suffix_of_suffix_length_le hab hsfx hlen2
    exact ha (List.mem_of_mem_take (hsub.subset (by simp)))

/-- When m ends in a character absent from a prefix p of x, and p is not an
infix of m, no nonempty suffix of m is a prefix of x: a short suffix would
sit inside p without its final character, and a long one would contain p. -/
theorem noTailPre_of_long_prefix {m x p : List Char} {a : Char}
    (hp : p <+: x) (hlast : m.getLast? = some a) (hap : a ∉ p)
    (hinf : ¬ p <:+: m) : NoTailPre m x := by
  intro k hk hw
  have hwsuf : m.drop k <:+ m := List.drop_suffix k m
  have hwne : m.drop k ≠ [] := by
    intro h0
    have hl := congrArg List.length h0
    simp only [List.length_drop, List.length_nil] at hl
    omega
  have hwlast : (m.drop k).getLast? = some a := by
    rcases hgl : (m.drop k).getLast? with _ | c
    · exact absurd (List.getLast?_eq_none_iff.mp hgl) hwne
    · obtain ⟨u, hu⟩ := hwsuf
      have hmc : m.getLast? = some c := by
        rw [← hu]
        exact getLast?_append_of_some hgl
      rw [hlast] at hmc
      injection hmc with hca
      rw [hca]
  rcases le_or_lt (m.drop k).length p.length with hle | hlt
  · have hwp : m.drop k <+: p := List.prefix_of_prefix_length_le hw hp hle
    exact hap (hwp.subset (List.mem_of_mem_getLast? (by rw [hwlast]; rfl)))
  · have hpw : p <+: m.drop k := List.prefix_of_prefix_length_le hp hw (by omega)
    exact hinf (List.infix_iff_prefix_suffix.mpr ⟨m.drop k, hpw, hwsuf⟩)

theorem infix_left_of_disjoint {m a b : List Char} (h : m <:+: a ++ b)
    (hm : m ≠ []) (hdisj : ∀ c ∈ m, c ∉ b) : m <:+: a := by
  rcases infix_append_cases h with h1 | h1 | ⟨m₁, m₂, hsplit, hne1, hne2, hsfx, hpfx⟩
  · exact h1
  · exfalso
    rcases m with _ | ⟨c, t⟩
    · exact hm rfl
    · exact hdisj c (List.mem_cons_self c t) (h1.subset (List.mem_cons_self c t))
  · exfalso
    rcases hm2 : m₂ with _ | ⟨c, t⟩
    · exact hne2 hm2
    · have hcB : c ∈ b := hpfx.subset (by rw [hm2]; exact List.mem_cons_self c t)
      have hcm : c ∈ m := by
        rw [hsplit, hm2]
        simp
      exact hdisj c hcm hcB

theorem matchSeq_take {pats : List RAtom} {cs : List Char} {ns : List Nat}
    (h : matchSeq pats cs = some ns) :
    ∃ segs, List.Forall₂ AtomMatches pats segs ∧ ns = segs.map List.length ∧
      cs.take ns.sum = segs.flatten := by
  obtain ⟨segs, hf, hns, hpre⟩ := matchSeq_sound h
  refine ⟨segs, hf, hns, ?_⟩
  have hlen : ns.sum = segs.flatten.length := by
    rw [hns, List.length_flatten]
  rw [hlen]
  exact (List.prefix_iff_eq_take.mp hpre).symm

/-- Structural facts about a project-section match: the matched string is
nonempty, ends in a semicolon, and is at least twenty characters long. -/
theorem projSection_props {v : List Char} {ns : List Nat}
    (h : matchSeq projSectionPat v = some ns) :
    v.take ns.sum ≠ [] ∧ (v.take ns.sum).getLast? = some ';' ∧ 20 ≤ ns.sum ∧
      (v.take ns.sum).length = ns.sum ∧ '(' ∈ v.take ns.sum ∧
      ∃ g, v.take ns.sum = g ++ [')', ';'] := by
  obtain ⟨segs, hf, hns, htake⟩ := matchSeq_take h
  rw [projSectionPat] at hf
  rw [List.forall₂_cons_left_iff] at hf
  obtain ⟨s1, _, h1, hf, rfl⟩ := hf
  rw [List.forall₂_cons_left_iff] at hf
  obtain ⟨s2, _, h2, hf, rfl⟩ := hf
  rw [List.forall₂_cons_left_iff] at hf
  obtain ⟨s3, _, h3, hf, rfl⟩ := hf
  rw [List.forall₂_cons_left_iff] at hf
  obtain ⟨s4, _, h4, hf, rfl⟩ := hf
  rw [List.forall₂_cons_left_iff] at hf
  obtain ⟨s5, _, h5, hf, rfl⟩ := hf
  rw [List.forall₂_cons_left_iff] at hf
  obtain ⟨s6, _, h6, hf, rfl⟩ := hf
  rw [List.forall₂_cons_left_iff] at hf
  obtain ⟨s7, _, h7, hf, rfl⟩ := hf
  cases hf
  have e1 : s1 = ("projectDirPath = \"\";").toList := h1
  have e5 : s5 = ("targets = (").toList := h5
  have e7 : s7 = (");").toList := h7
  simp only [List.flatten_cons, List.flatten_nil, List.append_nil] at htake
  refine ⟨?_, ?_, ?_, ?_, ?_, ?_⟩
  · rw [htake, e1]
    apply List.append_ne_nil_of_left_ne_nil
    decide
  · rw [htake]
    refine getLast?_append_of_some (getLast?_append_of_some (getLast?_append_of_some
      (getLast?_append_of_some (getLast?_append_of_some (getLast?_append_of_some ?_)))))
    rw [e7]
    rfl
  · rw [hns]
    simp only [List.map_cons, List.map_nil, List.sum_cons, List.sum_nil]
    rw [e1]
    have h20 : ("projectDirPath = \"\";").toList.length = 20 := by rfl
    omega
  · rw [htake, hns]
    simp only [List.map_cons, List.map_nil, List.sum_cons, List.sum_nil,
      List.length_append]
    omega
  · have h5in : '(' ∈ s5 := by
      rw [e5]
      decide
    rw [htake]
    simp only [List.mem_append]
    tauto
  · have e7' : s7 = [')', ';'] := by
      rw [e7]
      rfl
    rw [htake, e7']
    refine ⟨s1 ++ (s2 ++ (s3 ++ (s4 ++ (s5 ++ s6)))), ?_⟩
    simp [List.append_assoc]

/-- Elimination of a successful object-graph patch into its stages. -/
theorem addSparkle_written_elim {u1 u2 content out : List Char}
    (h : (addSparkle u1 u2 content).written = some out) :
    ¬ (marker <:+: content.map Char.toLower) ∧
    ∃ pos, findSub pbxHeader content = some pos ∧
      out = step4 u2 (step3 u1 (spliceSections u1 u2 content pos)) := by
  rw [addSparkle] at h
  by_cases h1 : marker <:+: content.map Char.toLower
  · rw [if_pos h1] at h
    cases h
  · rw [if_neg h1] at h
    rcases h2 : reSearch targetPat content with _ | p2
    · rw [h2] at h
      cases h
    · rw [h2] at h
      rcases h3 : reSearch projectObjPat content with _ | p3
      · rw [h3] at h
        cases h
      · rw [h3] at h
        rcases h4 : findSub pbxHeader content with _ | pos
        · rw [h4] at h
          cases h
        · rw [h4] at h
          simp only [Option.some.injEq] at h
          exact ⟨h1, pos, rfl, h.symm⟩

/-- An already-configured document makes the patcher return false with the
explanatory message and no write. -/
theorem addSparkle_already {u1 u2 content : List Char}
    (h1 : marker <:+: content.map Char.toLower) :
    addSparkle u1 u2 content =
      ⟨false, none, [SMsg.uuidRef u1, SMsg.uuidProd u2, SMsg.alreadyConfigured]⟩ := by
  rw [addSparkle, if_pos h1]
  rfl

set_option maxRecDepth 40000 in
/-- The marker occurs in the synthesized package-reference section. -/
theorem marker_in_refSection (u1 : List Char) : marker <:+: refSection u1 := by
  rw [refSection]
  have h : marker <:+:
      (" /* XCRemoteSwiftPackageReference \"Sparkle\" */ = \x7b\n\t\t\tisa = XCRemoteSwiftPackageReference;\n\t\t\trepositoryURL = \"https://github.com/sparkle-project/Sparkle\";\n\t\t\trequirement = \x7b\n\t\t\t\tkind = upToNextMajorVersion;\n\t\t\t\tminimumVersion = 2.0.0;\n\t\t\t\x7d;\n\t\t\x7d;\n/* End XCRemoteSwiftPackageReference section */\n").toList := by
    decide
  exact h.trans (List.suffix_append _ _).isInfix

/-- The marker occurs in the document right after the section splice. -/
theorem refSection_in_splice (u1 u2 content : List Char) (pos : Nat) :
    refSection u1 <:+: spliceSections u1 u2 content pos := by
  rw [spliceSections]
  refine ⟨content.take pos, ['\n'] ++ depSection u2 u1 ++ ['\n'] ++ content.drop pos, ?_⟩
  simp [List.append_assoc]

theorem marker_in_splice (u1 u2 content : List Char) (pos : Nat) :
    marker <:+: spliceSections u1 u2 content pos :=
  (marker_in_refSection u1).trans (refSection_in_splice u1 u2 content pos)

theorem take_drop_within (cs : List Char) (i n : Nat) :
    (cs.drop i).take n <:+: cs :=
  (List.take_prefix n (cs.drop i)).isInfix.trans (List.drop_suffix i cs).isInfix

/-- Structural facts about a Quill-target section match: the matched string
decomposes into the group-one text, the whitespace run, and the closing
literal, with the slices used by step four extracted exactly. -/
theorem targetSection_props {v : List Char} {ns : List Nat}
    (h : matchSeq targetSectionPat v = some ns) :
    ∃ s2 s4 : List Char,
      v.take ns.sum = v.take (ns.take 3).sum ++ (s4 ++ (");").toList) ∧
      v.take (ns.take 3).sum =
        quillTargetLit ++ (s2 ++ ("packageProductDependencies = (").toList) ∧
      (v.drop (ns.take 4).sum).take (ns.getD 4 0) = (");").toList ∧
      (v.drop (ns.take 3).sum).take (ns.getD 3 0) = s4 ∧
      (∀ c ∈ s4, isWs c) ∧ (∀ c ∈ s2, notRBrace c) ∧
      (v.take ns.sum).getLast? = some ';' ∧
      (v.take ns.sum).head? = some '8' ∧
      (v.take ns.sum).length = ns.sum ∧ 40 ≤ ns.sum := by
  obtain ⟨segs, hf, hns, htake⟩ := matchSeq_take h
  rw [targetSectionPat] at hf
  rw [List.forall₂_cons_left_iff] at hf
  obtain ⟨s1, _, h1, hf, rfl⟩ := hf
  rw [List.forall₂_cons_left_iff] at hf
  obtain ⟨s2, _, h2, hf, rfl⟩ := hf
  rw [List.forall₂_cons_left_iff] at hf
  obtain ⟨s3, _, h3, hf, rfl⟩ := hf
  rw [List.forall₂_cons_left_iff] at hf
  obtain ⟨s4, _, h4, hf, rfl⟩ := hf
  rw [List.forall₂_cons_left_iff] at hf
  obtain ⟨s5, _, h5, hf, rfl⟩ := hf
  cases hf
  have e1 : s1 = quillTargetLit := h1
  have e3 : s3 = ("packageProductDependencies = (").toList := h3
  have e5 : s5 = (");").toList := h5
  have hall2 : ∀ c ∈ s2, notRBrace c := (h2 : s2 ≠ [] ∧ _).2
  have hall4 : ∀ c ∈ s4, isWs c := h4
  subst hns
  subst e1
  subst e3
  subst e5
  have hsum : (List.map List.length [quillTargetLit, s2,
      ("packageProductDependencies = (").toList, s4, (");").toList]).sum =
      quillTargetLit.length + (s2.length +
        (("packageProductDependencies = (").toList.length + (s4.length +
          ((");").toList.length + 0)))) := rfl
  have ht3 : (List.take 3 (List.map List.length [quillTargetLit, s2,
      ("packageProductDependencies = (").toList, s4, (");").toList])).sum =
      quillTargetLit.length + (s2.length +
        (("packageProductDependencies = (").toList.length + 0)) := rfl
  have ht4 : (List.take 4 (List.map List.length [quillTargetLit, s2,
      ("packageProductDependencies = (").toList, s4, (");").toList])).sum =
      quillTargetLit.length + (s2.length +
        (("packageProductDependencies = (").toList.length + (s4.length + 0))) := rfl
  have hg3 : (List.map List.length [quillTargetLit, s2,
      ("packageProductDependencies = (").toList, s4, (");").toList]).getD 3 0 =
      s4.length := rfl
  have hg4 : (List.map List.length [quillTargetLit, s2,
      ("packageProductDependencies = (").toList, s4, (");").toList]).getD 4 0 =
      (");").toList.length := rfl
  simp only [List.flatten_cons, List.flatten_nil, List.append_nil] at htake
  rw [hsum] at htake
  have hvfull : v = quillTargetLit ++ (s2 ++
      (("packageProductDependencies = (").toList ++ (s4 ++
        ((");").toList ++ v.drop (quillTargetLit.length + (s2.length +
          (("packageProductDependencies = (").toList.length + (s4.length +
            ((");").toList.length + 0))))))))) := by
    conv_lhs => rw [← List.take_append_drop (quillTargetLit.length + (s2.length +
      (("packageProductDependencies = (").toList.length + (s4.length +
        ((");").toList.length + 0))))) v]
    rw [htake]
    simp [List.append_assoc]
  have htake3 : v.take (quillTargetLit.length + (s2.length +
      (("packageProductDependencies = (").toList.length + 0))) =
      quillTargetLit ++ (s2 ++ ("packageProductDependencies = (").toList) := by
    conv_lhs => rw [hvfull]
    rw [List.take_append, List.take_append, List.take_append]
    simp
  have hdrop3 : (v.drop (quillTargetLit.length + (s2.length +
      (("packageProductDependencies = (").toList.length + 0)))).take s4.length = s4 := by
    conv_lhs => rw [hvfull]
    rw [List.drop_append, List.drop_append, List.drop_append]
    simp [List.take_left]
  have hdrop4 : (v.drop (quillTargetLit.length + (s2.length +
      (("packageProductDependencies = (").toList.length + (s4.length + 0))))).take
        ((");").toList.length) = (");").toList := by
    conv_lhs => rw [hvfull]
    rw [List.drop_append, List.drop_append, List.drop_append, List.drop_append]
    simp [List.take_left]
  refine ⟨s2, s4, ?_, ?_, ?_, ?_, hall4, hall2, ?_, ?_, ?_, ?_⟩
  · rw [hsum, ht3, htake, htake3]
    simp [List.append_assoc]
  · rw [ht3, htake3]
  · rw [ht4, hg4]
    exact hdrop4
  · rw [ht3, hg3]
    exact hdrop3
  · rw [hsum, htake]
    refine getLast?_append_of_some (getLast?_append_of_some (getLast?_append_of_some
      (getLast?_append_of_some ?_)))
    rfl
  · rw [hsum, htake]
    apply head?_append_of_some
    rfl
  · rw [hsum, htake]
    simp [List.length_append]
    omega
  · rw [hsum]
    have h41 : quillTargetLit.length = 40 := by decide
    omega

theorem step3_eq_none {u1 c2 : List Char}
    (hs : reSearch projSectionPat c2 = none) : step3 u1 c2 = c2 := by
  rw [step3, hs]

theorem step3_eq_some {u1 c2 : List Char} {i : Nat} {ns : List Nat}
    (hs : reSearch projSectionPat c2 = some (i, ns)) :
    step3 u1 c2 = pyReplace c2 ((c2.drop i).take ns.sum)
      ((c2.drop i).take ns.sum ++ pkgRefsAttr u1) := by
  rw [step3, hs]

theorem step4_eq_none {u2 c3 : List Char}
    (hs : reSearch targetSectionPat c3 = none) : step4 u2 c3 = c3 := by
  rw [step4, hs]

theorem step4_eq_some {u2 c3 : List Char} {i : Nat} {ns : List Nat}
    (hs : reSearch targetSectionPat c3 = some (i, ns)) :
    step4 u2 c3 = pyReplace c3 ((c3.drop i).take ns.sum)
      ((c3.drop i).take (ns.take 3).sum ++ depEntry u2 ++
        ((c3.drop i).drop (ns.take 4).sum).take (ns.getD 4 0)) := by
  rw [step4, hs]

/-- The marker survives the package-references attribute substitution. -/
theorem marker_step3 {u1 c2 : List Char} (hm : marker <:+: c2) :
    marker <:+: step3 u1 c2 := by
  rcases hs : reSearch projSectionPat c2 with _ | ⟨i, ns⟩
  · rw [step3_eq_none hs]
    exact hm
  · obtain ⟨hi, hmatch, hleft⟩ := reSearch_some_elim hs
    obtain ⟨hne, hlast, hge, hleneq, hpar, hgdec⟩ := projSection_props hmatch
    rw [step3_eq_some hs, pyReplace_eq_aux hne]
    refine pyReplaceAux_infix_pres_ins hne ?_ ?_ c2 hm
    · exact noPrefOv_of_getLast hlast (by decide)
    · apply noMidOcc_of_le
      rw [hleneq]
      have h15 : marker.length = 15 := by decide
      omega

/-- The marker survives the dependency-list substitution. -/
theorem marker_step4 {u2 c3 : List Char} (hm : marker <:+: c3) :
    marker <:+: step4 u2 c3 := by
  rcases hs : reSearch targetSectionPat c3 with _ | ⟨i, ns⟩
  · rw [step4_eq_none hs]
    exact hm
  · obtain ⟨hi, hmatch, hleft⟩ := reSearch_some_elim hs
    obtain ⟨s2, s4, hA1, hA2, hA3, hA4, hws4, hnb2, hlast, hhead, hleneq, hge⟩ :=
      targetSection_props hmatch
    rw [step4_eq_some hs]
    have hne : (c3.drop i).take ns.sum ≠ [] := by
      intro h0
      rw [h0] at hleneq
      simp at hleneq
      omega
    rw [pyReplace_eq_aux hne]
    by_cases hmg0 : marker <:+: (c3.drop i).take ns.sum
    · have hmg1 : marker <:+: (c3.drop i).take (ns.take 3).sum := by
        rw [hA1] at hmg0
        refine infix_left_of_disjoint hmg0 (by decide) ?_
        intro c hcm hcB
        rcases List.mem_append.mp hcB with hcs4 | hc5
        · have hw := hws4 c hcs4
          have hnw : ∀ c ∈ marker, isWs c = false := by decide
          rw [hnw c hcm] at hw
          cases hw
        · have hnp : ∀ c ∈ marker, c ∉ ((");").toList) := by decide
          exact hnp c hcm hc5
      have hocc : (c3.drop i).take ns.sum <:+: c3 := take_drop_within c3 i ns.sum
      have hyin := @pyReplaceAux_y_occurs ((c3.drop i).take ns.sum)
        ((c3.drop i).take (ns.take 3).sum ++ depEntry u2 ++
          ((c3.drop i).drop (ns.take 4).sum).take (ns.getD 4 0)) hne c3 hocc
      refine List.IsInfix.trans ?_ hyin
      exact hmg1.trans ((List.prefix_append _ (depEntry u2)).trans
        (List.prefix_append _ _)).isInfix
    · refine pyReplaceAux_infix_pres hne hmg0 ?_ ?_ ?_ c3 hm
      · intro hcon
        have hlen := hcon.length_le
        rw [hleneq] at hlen
        have h15 : marker.length = 15 := by decide
        omega
      · exact noPrefOv_of_getLast hlast (by decide)
      · exact noTailPre_of_head hhead (by decide)

/-!
Survival of the synthesized sections through the two optional
substitutions, via facts about the characters they can contain.
-/

/-- Characters of the dependency section come from its three literal chunks
or from one of the two uppercase-hex identifiers. -/
theorem not_mem_depSection {u2 u1 : List Char} {c : Char}
    (hu1 : ∀ d ∈ u1, isHexUp d) (hu2 : ∀ d ∈ u2, isHexUp d)
    (hhex : isHexUp c = false)
    (h1 : c ∉ ("\n/* Begin XCSwiftPackageProductDependency section */\n\t\t").toList)
    (h2 : c ∉ (" /* Sparkle */ = \x7b\n\t\t\tisa = XCSwiftPackageProductDependency;\n\t\t\tpackage = ").toList)
    (h3 : c ∉ (" /* XCRemoteSwiftPackageReference \"Sparkle\" */;\n\t\t\tproductName = Sparkle;\n\t\t\x7d;\n/* End XCSwiftPackageProductDependency section */\n").toList) :
    c ∉ depSection u2 u1 := by
  intro hc
  rw [depSection] at hc
  simp only [List.mem_append] at hc
  rcases hc with (((hc | hc) | hc) | hc) | hc
  · exact h1 hc
  · rw [hu2 c hc] at hhex
    cases hhex
  · exact h2 hc
  · rw [hu1 c hc] at hhex
    cases hhex
  · exact h3 hc

/-- Characters of the package-reference section come from its two literal
chunks or from the uppercase-hex identifier. -/
theorem not_mem_refSection {u1 : List Char} {c : Char}
    (hu1 : ∀ d ∈ u1, isHexUp d) (hhex : isHexUp c = false)
    (h1 : c ∉ ("\n/* Begin XCRemoteSwiftPackageReference section */\n\t\t").toList)
    (h2 : c ∉ (" /* XCRemoteSwiftPackageReference \"Sparkle\" */ = \x7b\n\t\t\tisa = XCRemoteSwiftPackageReference;\n\t\t\trepositoryURL = \"https://github.com/sparkle-project/Sparkle\";\n\t\t\trequirement = \x7b\n\t\t\t\tkind = upToNextMajorVersion;\n\t\t\t\tminimumVersion = 2.0.0;\n\t\t\t\x7d;\n\t\t\x7d;\n/* End XCRemoteSwiftPackageReference section */\n").toList) :
    c ∉ refSection u1 := by
  intro hc
  rw [refSection] at hc
  simp only [List.mem_append] at hc
  rcases hc with (hc | hc) | hc
  · exact h1 hc
  · rw [hu1 c hc] at hhex
    cases hhex
  · exact h2 hc

theorem depSection_head (u2 u1 : List Char) :
    (depSection u2 u1).head? = some '\n' := by
  rw [depSection]
  exact head?_append_of_some (head?_append_of_some (head?_append_of_some
    (head?_append_of_some (by decide))))

theorem refSection_head (u1 : List Char) :
    (refSection u1).head? = some '\n' := by
  rw [refSection]
  exact head?_append_of_some (head?_append_of_some (by decide))

theorem depSection_last (u2 u1 : List Char) :
    (depSection u2 u1).getLast? = some '\n' := by
  rw [depSection]
  exact getLast?_append_of_some (by decide)

theorem refSection_last (u1 : List Char) :
    (refSection u1).getLast? = some '\n' := by
  rw [refSection]
  exact getLast?_append_of_some (by decide)

theorem rbrace_mem_depSection (u2 u1 : List Char) : rbrace ∈ depSection u2 u1 := by
  rw [depSection]
  simp only [List.mem_append]
  have h : rbrace ∈ (" /* XCRemoteSwiftPackageReference \"Sparkle\" */;\n\t\t\tproductName = Sparkle;\n\t\t\x7d;\n/* End XCSwiftPackageProductDependency section */\n").toList := by
    decide
  tauto

theorem rbrace_mem_refSection (u1 : List Char) : rbrace ∈ refSection u1 := by
  rw [refSection]
  simp only [List.mem_append]
  have h : rbrace ∈ (" /* XCRemoteSwiftPackageReference \"Sparkle\" */ = \x7b\n\t\t\tisa = XCRemoteSwiftPackageReference;\n\t\t\trepositoryURL = \"https://github.com/sparkle-project/Sparkle\";\n\t\t\trequirement = \x7b\n\t\t\t\tkind = upToNextMajorVersion;\n\t\t\t\tminimumVersion = 2.0.0;\n\t\t\t\x7d;\n\t\t\x7d;\n/* End XCRemoteSwiftPackageReference section */\n").toList := by
    decide
  tauto

/-- Any infix of the document containing no parenthesis and not beginning
with a semicolon survives the package-references substitution. -/
theorem survives_step3 {u1 m c2 : List Char} (hm : m <:+: c2)
    (hLp : '(' ∉ m) (hRp : ')' ∉ m) (hhead : m.head? ≠ some ';') :
    m <:+: step3 u1 c2 := by
  rcases hs : reSearch projSectionPat c2 with _ | ⟨i, ns⟩
  · rw [step3_eq_none hs]
    exact hm
  · obtain ⟨hi, hmatch, hleft⟩ := reSearch_some_elim hs
    obtain ⟨hne, hlast, hge, hleneq, hpar, g, hgdec⟩ := projSection_props hmatch
    rw [step3_eq_some hs, pyReplace_eq_aux hne]
    refine pyReplaceAux_infix_pres_ins hne ?_ ?_ c2 hm
    · exact noPrefOv_of_last_two hgdec hRp hhead
    · exact noMidOcc_of_mem_notin hpar hLp

/-- Any infix of the document that contains a right brace and no
parenthesis, does not begin with a semicolon, ends with a newline, and does
not contain the Quill-target literal, survives the dependency-list
substitution. -/
theorem survives_step4 {u2 m c3 : List Char} (hm : m <:+: c3)
    (hLp : '(' ∉ m) (hRp : ')' ∉ m) (hRb : rbrace ∈ m)
    (hhead : m.head? ≠ some ';') (hlastm : m.getLast? = some '\n')
    (hfree : ¬ quillTargetLit <:+: m) :
    m <:+: step4 u2 c3 := by
  rcases hs : reSearch targetSectionPat c3 with _ | ⟨i, ns⟩
  · rw [step4_eq_none hs]
    exact hm
  · obtain ⟨hi, hmatch, hleft⟩ := reSearch_some_elim hs
    obtain ⟨s2, s4, hA1, hA2, hA3, hA4, hws4, hnb2, hlast, hhead8, hleneq, hge⟩ :=
      targetSection_props hmatch
    rw [step4_eq_some hs]
    have hne : (c3.drop i).take ns.sum ≠ [] := by
      intro h0
      rw [h0] at hleneq
      simp at hleneq
      omega
    rw [pyReplace_eq_aux hne]
    have hg0 : (c3.drop i).take ns.sum =
        ((c3.drop i).take (ns.take 3).sum ++ s4) ++ [')', ';'] := by
      rw [hA1]
      have e2 : ((");").toList : List Char) = [')', ';'] := rfl
      rw [e2, List.append_assoc]
    have hqpre : quillTargetLit <+: (c3.drop i).take ns.sum := by
      rw [hA1, hA2, List.append_assoc]
      exact List.prefix_append quillTargetLit _
    have hparg0 : '(' ∈ (c3.drop i).take ns.sum := by
      rw [hA1, hA2]
      have hl3 : '(' ∈ ("packageProductDependencies = (").toList := by decide
      simp only [List.mem_append]
      tauto
    have hrbg0 : rbrace ∉ (c3.drop i).take ns.sum := by
      intro hc
      rw [hA1, hA2] at hc
      simp only [List.mem_append] at hc
      rcases hc with (hq | hs2 | hl3) | (hs4c | h5c)
      · exact absurd hq (by decide)
      · exact absurd (hnb2 _ hs2) (by decide)
      · exact absurd hl3 (by decide)
      · exact absurd (hws4 _ hs4c) (by decide)
      · exact absurd h5c (by decide)
    have hmin : ¬ m <:+: (c3.drop i).take ns.sum := fun hc => hrbg0 (hc.subset hRb)
    refine pyReplaceAux_infix_pres hne hmin ?_ ?_ ?_ c3 hm
    · exact fun hc => hLp (hc.subset hparg0)
    · exact noPrefOv_of_last_two hg0 hRp hhead
    · exact noTailPre_of_long_prefix hqpre hlastm (by decide) hfree

theorem depSection_in_splice (u1 u2 content : List Char) (pos : Nat) :
    depSection u2 u1 <:+: spliceSections u1 u2 content pos := by
  rw [spliceSections]
  refine ⟨content.take pos ++ refSection u1 ++ ['\n'], ['\n'] ++ content.drop pos, ?_⟩
  simp [List.append_assoc]

/-- The original document is a subsequence of the document right after the
section splice. -/
theorem splice_sublist (u1 u2 content : List Char) (pos : Nat) :
    content.Sublist (spliceSections u1 u2 content pos) := by
  rw [spliceSections]
  conv_lhs => rw [← List.take_append_drop pos content]
  simp only [List.append_assoc]
  refine List.Sublist.append (List.Sublist.refl _) ?_
  exact (((List.sublist_append_right ['\n'] _).trans
    (List.sublist_append_right (depSection u2 u1) _)).trans
    (List.sublist_append_right ['\n'] _)).trans
    (List.sublist_append_right (refSection u1) _)

/-- The document before step three is a subsequence of the document after
it: the substitution only ever inserts the attribute text. -/
theorem step3_sublist (u1 c2 : List Char) : c2.Sublist (step3 u1 c2) := by
  rcases hs : reSearch projSectionPat c2 with _ | ⟨i, ns⟩
  · rw [step3_eq_none hs]
  · obtain ⟨hi, hmatch, hleft⟩ := reSearch_some_elim hs
    obtain ⟨hne, hlast, hge, hleneq, hpar, g, hgdec⟩ := projSection_props hmatch
    rw [step3_eq_some hs, pyReplace_eq_aux hne]
    exact pyReplaceAux_sublist hne (List.sublist_append_left _ _) c2

/-- C1: applying the object-graph patch twice yields the document of the
single application.  Whenever a first run writes a document, a second run on
that document finds the marker substring case-insensitively, performs no
write (so the document stays exactly as the first run wrote it), and
returns false with the already-configured message, whatever identifiers the
second run generates. -/
theorem second_run_is_noop {u1 u2 u1' u2' content out : List Char}
    (h : (addSparkle u1 u2 content).written = some out) :
    addSparkle u1' u2' out =
      ⟨false, none, [SMsg.uuidRef u1', SMsg.uuidProd u2', SMsg.alreadyConfigured]⟩ := by
  obtain ⟨hnm, pos, hpos, hout⟩ := addSparkle_written_elim h
  have hm4 : marker <:+: out := by
    rw [hout]
    exact marker_step4 (marker_step3 (marker_in_splice u1 u2 content pos))
  apply addSparkle_already
  have hmap := List.IsInfix.map Char.toLower hm4
  rwa [show List.map Char.toLower marker = marker from by decide] at hmap

set_option maxRecDepth 1000000 in
theorem second_run_is_noop_witness :
    (addSparkle exU1 exU2 exDocNoDeps).written =
      some ((addSparkle exU1 exU2 exDocNoDeps).written.getD []) ∧
    addSparkle exU1 exU2 ((addSparkle exU1 exU2 exDocNoDeps).written.getD []) =
      ⟨false, none, [SMsg.uuidRef exU1, SMsg.uuidProd exU2,
        SMsg.alreadyConfigured]⟩ :=
  ⟨by decide, @second_run_is_noop exU1 exU2 exU1 exU2 exDocNoDeps
    ((addSparkle exU1 exU2 exDocNoDeps).written.getD []) (by decide)⟩

/-- C4: a document in which the Quill-target search fails is never patched:
the patcher returns false and performs no write, so the document stays
byte-identical to its input; this holds whether the run stops at the marker
check or at the missing target anchor. -/
theorem missing_target_aborts {u1 u2 content : List Char}
    (h : reSearch targetPat content = none) :
    (addSparkle u1 u2 content).ok = false ∧
    (addSparkle u1 u2 content).written = none := by
  rw [addSparkle]
  by_cases h1 : marker <:+: content.map Char.toLower
  · rw [if_pos h1]
    exact ⟨rfl, rfl⟩
  · rw [if_neg h1, h]
    exact ⟨rfl, rfl⟩

theorem missing_target_aborts_witness :
    reSearch targetPat exDocNoTarget = none ∧
    (addSparkle exU1 exU2 exDocNoTarget).ok = false ∧
    (addSparkle exU1 exU2 exDocNoTarget).written = none :=
  ⟨by decide, missing_target_aborts (by decide)⟩

/-- C5 amended: the three hard anchors of the object-graph patch each abort
the whole operation with a diagnostic naming the missing anchor, and a
missing feed anchor aborts the whole feed update with no write; but the two
optional anchors fail silently: when the three hard anchors pass, the run
reports success with only the generated-identifier and added messages, and
a failed project-section or dependency-list search just leaves its
sub-step undone with no diagnostic. -/
theorem anchor_failures_reported :
    (∀ u1 u2 content, ¬ marker <:+: content.map Char.toLower →
      reSearch targetPat content = none →
      addSparkle u1 u2 content =
        ⟨false, none, [SMsg.uuidRef u1, SMsg.uuidProd u2, SMsg.errNoTarget]⟩) ∧
    (∀ u1 u2 content p, ¬ marker <:+: content.map Char.toLower →
      reSearch targetPat content = some p →
      reSearch projectObjPat content = none →
      addSparkle u1 u2 content =
        ⟨false, none,
          [SMsg.uuidRef u1, SMsg.uuidProd u2, SMsg.errNoProjectObject]⟩) ∧
    (∀ u1 u2 content p q, ¬ marker <:+: content.map Char.toLower →
      reSearch targetPat content = some p →
      reSearch projectObjPat content = some q →
      findSub pbxHeader content = none →
      addSparkle u1 u2 content =
        ⟨false, none,
          [SMsg.uuidRef u1, SMsg.uuidProd u2, SMsg.errNoPBXSection]⟩) ∧
    (∀ content version size notesFile repo date,
      reSearch feedPat content = none →
      updateAppcast content version size notesFile repo date = none) ∧
    (∀ u1 u2 content p q pos, ¬ marker <:+: content.map Char.toLower →
      reSearch targetPat content = some p →
      reSearch projectObjPat content = some q →
      findSub pbxHeader content = some pos →
      addSparkle u1 u2 content =
        ⟨true, some (step4 u2 (step3 u1 (spliceSections u1 u2 content pos))),
          [SMsg.uuidRef u1, SMsg.uuidProd u2, SMsg.added]⟩) ∧
    (∀ u1 c2, reSearch projSectionPat c2 = none → step3 u1 c2 = c2) ∧
    (∀ u2 c3, reSearch targetSectionPat c3 = none → step4 u2 c3 = c3) := by
  refine ⟨?_, ?_, ?_, ?_, ?_, ?_, ?_⟩
  · intro u1 u2 content h1 ht
    rw [addSparkle, if_neg h1, ht]
    rfl
  · intro u1 u2 content p h1 ht hp
    rw [addSparkle, if_neg h1, ht, hp]
    rfl
  · intro u1 u2 content p q h1 ht hp hf
    rw [addSparkle, if_neg h1, ht, hp, hf]
    rfl
  · intro content version size notesFile repo date hf
    rw [updateAppcast, hf]
  · intro u1 u2 content p q pos h1 ht hp hf
    rw [addSparkle, if_neg h1, ht, hp, hf]
    rfl
  · intro u1 c2 hs
    exact step3_eq_none hs
  · intro u2 c3 hs
    exact step4_eq_none hs

set_option maxRecDepth 1000000 in
theorem anchor_failures_reported_witness :
    addSparkle exU1 exU2 exDocNoTarget =
      ⟨false, none, [SMsg.uuidRef exU1, SMsg.uuidProd exU2,
        SMsg.errNoTarget]⟩ :=
  anchor_failures_reported.1 exU1 exU2 exDocNoTarget (by decide) (by decide)

set_option maxRecDepth 1000000 in
/-- C5 counterexample: on the example document the project-section and
dependency-list anchor searches both fail after the splice, yet the patch
reports success and its diagnostics name neither missing anchor (no such
message even exists): the failed searches of the optional sub-steps are
silently ignored, contrary to the claim that every anchor-search failure is
reported. -/
theorem anchor_silent_skip_counterexample :
    reSearch projSectionPat (spliceSections exU1 exU2 exDocNoDeps 113) = none ∧
    reSearch targetSectionPat (spliceSections exU1 exU2 exDocNoDeps 113) = none ∧
    findSub pbxHeader exDocNoDeps = some 113 ∧
    (addSparkle exU1 exU2 exDocNoDeps).ok = true ∧
    (addSparkle exU1 exU2 exDocNoDeps).logs =
      [SMsg.uuidRef exU1, SMsg.uuidProd exU2, SMsg.added] :=
  ⟨by decide, by decide, by decide, by decide, by decide⟩

/-- Failure of the substring finder refutes occurrence; this lets a
non-occurrence fact be evaluated by the structurally recursive finder. -/
theorem findSub_none_not_infix {x s : List Char} (h : findSub x s = none) :
    ¬ x <:+: s := by
  induction s with
  | nil =>
    intro hi
    have hx : x = [] := List.infix_nil.mp hi
    rw [findSub, if_pos hx] at h
    cases h
  | cons c t ih =>
    rw [findSub] at h
    by_cases hp : x <+: c :: t
    · rw [if_pos hp] at h
      cases h
    · rw [if_neg hp] at h
      have hnone : findSub x t = none := by
        rcases hf : findSub x t with _ | n
        · rfl
        · rw [hf] at h
          cases h
      intro hi
      rcases List.infix_cons_iff.mp hi with hcase | hcase
      · exact hp hcase
      · exact ih hnone hcase

/-- C2 amended: after any successful patch with uppercase-hex identifiers,
both synthesized records are present in the written document, so the
product-dependency record's package attribute names the identifier of the
present package-reference record; but the Quill target's dependency list
contains the product-dependency identifier only when the optional
dependency-list anchor matched, which a successful run does not guarantee
(see the counterexample). -/
theorem referential_integrity {u1 u2 content out : List Char}
    (h : (addSparkle u1 u2 content).written = some out)
    (hu1 : ∀ d ∈ u1, isHexUp d) (hu2 : ∀ d ∈ u2, isHexUp d) :
    refSection u1 <:+: out ∧ depSection u2 u1 <:+: out ∧
    (∀ pos i ns, findSub pbxHeader content = some pos →
      reSearch targetSectionPat (step3 u1 (spliceSections u1 u2 content pos)) =
        some (i, ns) →
      (("packageProductDependencies = (\n\t\t\t\t").toList ++ u2 ++
        (" /* Sparkle */,\n\t\t\t);").toList) <:+: out) := by
  obtain ⟨hnm, pos, hpos, hout⟩ := addSparkle_written_elim h
  have hdLp : '(' ∉ depSection u2 u1 :=
    not_mem_depSection hu1 hu2 (by decide) (by decide) (by decide) (by decide)
  have hdRp : ')' ∉ depSection u2 u1 :=
    not_mem_depSection hu1 hu2 (by decide) (by decide) (by decide) (by decide)
  have hdQ : 'Q' ∉ depSection u2 u1 :=
    not_mem_depSection hu1 hu2 (by decide) (by decide) (by decide) (by decide)
  have hdfree : ¬ quillTargetLit <:+: depSection u2 u1 := fun hc =>
    hdQ (hc.subset (by decide))
  have hdhead : (depSection u2 u1).head? ≠ some ';' := by
    rw [depSection_head]
    decide
  have hrLp : '(' ∉ refSection u1 :=
    not_mem_refSection hu1 (by decide) (by decide) (by decide)
  have hrRp : ')' ∉ refSection u1 :=
    not_mem_refSection hu1 (by decide) (by decide) (by decide)
  have hrQ : 'Q' ∉ refSection u1 :=
    not_mem_refSection hu1 (by decide) (by decide) (by decide)
  have hrfree : ¬ quillTargetLit <:+: refSection u1 := fun hc =>
    hrQ (hc.subset (by decide))
  have hrhead : (refSection u1).head? ≠ some ';' := by
    rw [refSection_head]
    decide
  have hdep3 : depSection u2 u1 <:+: step3 u1 (spliceSections u1 u2 content pos) :=
    survives_step3 (depSection_in_splice u1 u2 content pos) hdLp hdRp hdhead
  have hdep4 : depSection u2 u1 <:+:
      step4 u2 (step3 u1 (spliceSections u1 u2 content pos)) :=
    survives_step4 hdep3 hdLp hdRp (rbrace_mem_depSection u2 u1) hdhead
      (depSection_last u2 u1) hdfree
  have href3 : refSection u1 <:+: step3 u1 (spliceSections u1 u2 content pos) :=
    survives_step3 (refSection_in_splice u1 u2 content pos) hrLp hrRp hrhead
  have href4 : refSection u1 <:+:
      step4 u2 (step3 u1 (spliceSections u1 u2 content pos)) :=
    survives_step4 href3 hrLp hrRp (rbrace_mem_refSection u1) hrhead
      (refSection_last u1) hrfree
  refine ⟨by rw [hout]; exact href4, by rw [hout]; exact hdep4, ?_⟩
  intro pos2 i ns hpos2 hsearch
  rw [hpos] at hpos2
  injection hpos2 with hpe
  subst hpe
  obtain ⟨hi, hmatch, hleft⟩ := reSearch_some_elim hsearch
  obtain ⟨s2, s4, hA1, hA2, hA3, hA4, hws4, hnb2, hlast, hhead8, hleneq, hge⟩ :=
    targetSection_props hmatch
  have hne : ((step3 u1 (spliceSections u1 u2 content pos)).drop i).take ns.sum ≠ [] := by
    intro h0
    rw [h0] at hleneq
    simp at hleneq
    omega
  have hsplit1 : ("packageProductDependencies = (\n\t\t\t\t").toList =
      ("packageProductDependencies = (").toList ++ ("\n\t\t\t\t").toList := by
    decide
  have hsplit2 : (" /* Sparkle */,\n\t\t\t);").toList =
      (" /* Sparkle */,\n\t\t\t").toList ++ (");").toList := by
    decide
  have hyout : ((step3 u1 (spliceSections u1 u2 content pos)).drop i).take
        (ns.take 3).sum ++ depEntry u2 ++
      (((step3 u1 (spliceSections u1 u2 content pos)).drop i).drop
        (ns.take 4).sum).take (ns.getD 4 0) <:+: out := by
    rw [hout, step4_eq_some hsearch, pyReplace_eq_aux hne]
    exact pyReplaceAux_y_occurs hne _ (take_drop_within _ i ns.sum)
  refine List.IsInfix.trans ?_ hyout
  rw [hA2, hA3]
  refine ⟨quillTargetLit ++ s2, [], ?_⟩
  simp only [hsplit1, hsplit2, depEntry, List.append_assoc, List.append_nil]

set_option maxRecDepth 1000000 in
theorem referential_integrity_witness :
    refSection exU1 <:+:
      step4 exU2 (step3 exU1 (spliceSections exU1 exU2 exDocWs 187)) ∧
    depSection exU2 exU1 <:+:
      step4 exU2 (step3 exU1 (spliceSections exU1 exU2 exDocWs 187)) ∧
    (("packageProductDependencies = (\n\t\t\t\t").toList ++ exU2 ++
      (" /* Sparkle */,\n\t\t\t);").toList) <:+:
      step4 exU2 (step3 exU1 (spliceSections exU1 exU2 exDocWs 187)) := by
  have h : (addSparkle exU1 exU2 exDocWs).written =
      some (step4 exU2 (step3 exU1 (spliceSections exU1 exU2 exDocWs 187))) := by
    rw [addSparkle,
      if_neg (by decide : ¬ marker <:+: exDocWs.map Char.toLower),
      (by decide : reSearch targetPat exDocWs = some (36, [15, 1, 21, 5, 19, 4])),
      (by decide : reSearch projectObjPat exDocWs = some (2, [21, 1, 11])),
      (by decide : findSub pbxHeader exDocWs = some 187)]
  have hr := referential_integrity h (by decide) (by decide)
  exact ⟨hr.1, hr.2.1, hr.2.2 187 106 [40, 4, 30, 1, 2] (by decide) (by decide)⟩

set_option maxRecDepth 1000000 in
/-- C2 counterexample: on the example document the patch reports success
and writes exactly the spliced document, which contains no
packageProductDependencies attribute at all, so the Quill target's
dependency list does not contain the product-dependency record's
identifier: that identifier dangles, contrary to the claim. -/
theorem dangling_dependency_counterexample :
    addSparkle exU1 exU2 exDocNoDeps =
      ⟨true, some (spliceSections exU1 exU2 exDocNoDeps 113),
        [SMsg.uuidRef exU1, SMsg.uuidProd exU2, SMsg.added]⟩ ∧
    ¬ (("packageProductDependencies").toList <:+:
        spliceSections exU1 exU2 exDocNoDeps 113) := by
  constructor
  · rw [addSparkle,
      if_neg (by decide : ¬ marker <:+: exDocNoDeps.map Char.toLower),
      (by decide : reSearch targetPat exDocNoDeps =
        some (41, [15, 1, 21, 5, 19, 6])),
      (by decide : reSearch projectObjPat exDocNoDeps = some (7, [21, 1, 11])),
      (by decide : findSub pbxHeader exDocNoDeps = some 113)]
    show (SResult.mk true
        (some (step4 exU2 (step3 exU1 (spliceSections exU1 exU2 exDocNoDeps 113))))
        ([SMsg.uuidRef exU1, SMsg.uuidProd exU2] ++ [SMsg.added])) = _
    rw [step3_eq_none (by decide : reSearch projSectionPat
        (spliceSections exU1 exU2 exDocNoDeps 113) = none),
      step4_eq_none (by decide : reSearch targetSectionPat
        (spliceSections exU1 exU2 exDocNoDeps 113) = none)]
    rfl
  · exact findSub_none_not_infix (by decide)

/-- When the whitespace run matched inside the dependency list is empty or
exactly the newline-and-tabs run that the inserted entry re-creates, the
dependency-list substitution only inserts text. -/
theorem step4_sublist_of_ws {u2 c3 : List Char}
    (hws : ∀ i ns, reSearch targetSectionPat c3 = some (i, ns) →
      ((c3.drop i).drop (ns.take 3).sum).take (ns.getD 3 0) = [] ∨
      ((c3.drop i).drop (ns.take 3).sum).take (ns.getD 3 0) =
        ("\n\t\t\t").toList) :
    c3.Sublist (step4 u2 c3) := by
  rcases hs : reSearch targetSectionPat c3 with _ | ⟨i, ns⟩
  · rw [step4_eq_none hs]
  · obtain ⟨hi, hmatch, hleft⟩ := reSearch_some_elim hs
    obtain ⟨s2, s4, hA1, hA2, hA3, hA4, hws4, hnb2, hlast, hhead8, hleneq, hge⟩ :=
      targetSection_props hmatch
    rw [step4_eq_some hs]
    have hne : (c3.drop i).take ns.sum ≠ [] := by
      intro h0
      rw [h0] at hleneq
      simp at hleneq
      omega
    rw [pyReplace_eq_aux hne]
    refine pyReplaceAux_sublist hne ?_ c3
    rcases hws i ns hs with h0 | h0
    · rw [hA4] at h0
      subst h0
      rw [hA1, hA3]
      simp only [List.nil_append]
      rw [List.append_assoc]
      exact (List.Sublist.refl _).append (List.sublist_append_right _ _)
    · rw [hA4] at h0
      subst h0
      rw [hA1, hA3]
      have hB : (" /* Sparkle */,\n\t\t\t").toList =
          (" /* Sparkle */,").toList ++ ("\n\t\t\t").toList := by
        decide
      rw [depEntry, hB]
      simp only [List.append_assoc]
      refine (List.Sublist.refl _).append ?_
      exact ((List.sublist_append_right ((" /* Sparkle */,").toList) _).trans
        (List.sublist_append_right u2 _)).trans
        (List.sublist_append_right (("\n\t\t\t\t").toList) _)

/-- C3 amended: the feed update is exactly one insertion at the located
span, preserving everything around it; the object-graph patch preserves the
original document as a subsequence (pure insertion) only when each
dependency-list match consumes either no whitespace or exactly the
newline-and-tabs run that the inserted entry re-creates; otherwise the
matched whitespace is deleted (see the counterexample). -/
theorem insertion_only :
    (∀ content version size notesFile repo date i ns,
      reSearch feedPat content = some (i, ns) →
      updateAppcast content version size notesFile repo date =
        some (content.take (i + ns.sum) ++
          itemBlock version size (parseReleaseNotes notesFile) repo date ++
          content.drop (i + ns.sum))) ∧
    (∀ u1 u2 content out, (addSparkle u1 u2 content).written = some out →
      (∀ pos i ns, findSub pbxHeader content = some pos →
        reSearch targetSectionPat (step3 u1 (spliceSections u1 u2 content pos)) =
          some (i, ns) →
        (((step3 u1 (spliceSections u1 u2 content pos)).drop i).drop
            (ns.take 3).sum).take (ns.getD 3 0) = [] ∨
        (((step3 u1 (spliceSections u1 u2 content pos)).drop i).drop
            (ns.take 3).sum).take (ns.getD 3 0) = ("\n\t\t\t").toList) →
      content.Sublist out) := by
  constructor
  · intro content version size notesFile repo date i ns h
    rw [updateAppcast, h]
  · intro u1 u2 content out h hws
    obtain ⟨hnm, pos, hpos, hout⟩ := addSparkle_written_elim h
    have h1 : content.Sublist (spliceSections u1 u2 content pos) :=
      splice_sublist u1 u2 content pos
    have h2 : (spliceSections u1 u2 content pos).Sublist
        (step3 u1 (spliceSections u1 u2 content pos)) :=
      step3_sublist u1 (spliceSections u1 u2 content pos)
    have h3 : (step3 u1 (spliceSections u1 u2 content pos)).Sublist
        (step4 u2 (step3 u1 (spliceSections u1 u2 content pos))) :=
      step4_sublist_of_ws (fun i ns hs => hws pos i ns hpos hs)
    rw [hout]
    exact (h1.trans h2).trans h3

set_option maxRecDepth 1000000 in
theorem insertion_only_witness :
    updateAppcast exFeed (("1.0.0").toList) (("100").toList) none
        (("zmh/quill").toList) exDate =
      some (exFeed.take 252 ++
        itemBlock (("1.0.0").toList) (("100").toList) (parseReleaseNotes none)
          (("zmh/quill").toList) exDate ++
        exFeed.drop 252) ∧
    exDocNl.Sublist
      (step4 exU2 (step3 exU1 (spliceSections exU1 exU2 exDocNl 190))) := by
  constructor
  · exact insertion_only.1 exFeed (("1.0.0").toList) (("100").toList) none
      (("zmh/quill").toList) exDate 247 [3, 0, 1, 0, 1] (by decide)
  · have h : (addSparkle exU1 exU2 exDocNl).written =
        some (step4 exU2 (step3 exU1 (spliceSections exU1 exU2 exDocNl 190))) := by
      rw [addSparkle,
        if_neg (by decide : ¬ marker <:+: exDocNl.map Char.toLower),
        (by decide : reSearch targetPat exDocNl =
          some (36, [15, 1, 21, 5, 19, 4])),
        (by decide : reSearch projectObjPat exDocNl = some (2, [21, 1, 11])),
        (by decide : findSub pbxHeader exDocNl = some 190)]
    refine insertion_only.2 exU1 exU2 exDocNl _ h ?_
    intro pos i ns h1 h2
    rw [(by decide : findSub pbxHeader exDocNl = some 190)] at h1
    injection h1 with hp
    subst hp
    rw [(by decide : reSearch targetSectionPat
        (step3 exU1 (spliceSections exU1 exU2 exDocNl 190)) =
          some (106, [40, 4, 30, 4, 2]))] at h2
    injection h2 with hpair
    rw [Prod.mk.injEq] at hpair
    obtain ⟨hie, hnse⟩ := hpair
    subst hie
    subst hnse
    right
    decide

set_option maxRecDepth 1000000 in
/-- C3 counterexample: on the example document the patch succeeds, but
removing the inserted fragments (the spliced pair of sections and the
dependency-list entry) from the written document does not restore the
original: the space the dependency-list pattern matched between the
parentheses was deleted by the substitution. -/
theorem deletion_counterexample :
    (addSparkle exU1 exU2 exDocWs).ok = true ∧
    pyReplace (pyReplace ((addSparkle exU1 exU2 exDocWs).written.getD [])
        (refSection exU1 ++ ['\n'] ++ depSection exU2 exU1 ++ ['\n']) [])
      (depEntry exU2) [] ≠ exDocWs :=
  ⟨by decide, by decide⟩

/-!
Lemmas about the release-notes line loop.
-/

theorem parseReleaseNotes_some (content : List Char) :
    parseReleaseNotes (some content) =
      if collectNotes (splitNl content) false = [] then [defaultNote]
      else (collectNotes (splitNl content) false).take 5 := rfl

theorem collectNotes_ne_nil (ls : List (List Char)) :
    ∀ (b : Bool) (nt : List Char), nt ∈ collectNotes ls b → nt ≠ [] := by
  induction ls with
  | nil =>
    intro b nt h
    rw [collectNotes] at h
    cases h
  | cons l t ih =>
    intro b nt h
    rw [collectNotes] at h
    by_cases h1 : lineHasMagic l = true
    · rw [if_pos h1] at h
      exact ih true nt h
    · rw [if_neg h1] at h
      by_cases h2 : (decide (hashHash <+: l) && b) = true
      · rw [if_pos h2] at h
        cases h
      · rw [if_neg h2] at h
        by_cases h3 : (b && isBullet l) = true
        · rw [if_pos h3] at h
          by_cases h4 : cleanOf l = []
          · rw [if_pos h4] at h
            exact ih b nt h
          · rw [if_neg h4] at h
            rcases List.mem_cons.mp h with rfl | hmem
            · exact h4
            · exact ih b nt hmem
        · rw [if_neg h3] at h
          exact ih b nt h

theorem collectNotes_no_magic (ls : List (List Char))
    (hall : ∀ l ∈ ls, lineHasMagic l = false) :
    collectNotes ls false = [] := by
  induction ls with
  | nil => rw [collectNotes]
  | cons l t ih =>
    rw [collectNotes]
    have h1 : ¬ lineHasMagic l = true := by
      rw [hall l (List.mem_cons_self l t)]
      decide
    rw [if_neg h1]
    have h2 : ¬ ((decide (hashHash <+: l) && false) = true) := by simp
    rw [if_neg h2]
    have h3 : ¬ ((false && isBullet l) = true) := by simp
    rw [if_neg h3]
    exact ih (fun l' hl' => hall l' (List.mem_cons_of_mem l hl'))

theorem collectNotes_pre (pre rest : List (List Char))
    (hpre : ∀ l ∈ pre, lineHasMagic l = false) :
    collectNotes (pre ++ rest) false = collectNotes rest false := by
  induction pre with
  | nil => rfl
  | cons l t ih =>
    rw [List.cons_append, collectNotes]
    have h1 : ¬ lineHasMagic l = true := by
      rw [hpre l (List.mem_cons_self l t)]
      decide
    rw [if_neg h1]
    have h2 : ¬ ((decide (hashHash <+: l) && false) = true) := by simp
    rw [if_neg h2]
    have h3 : ¬ ((false && isBullet l) = true) := by simp
    rw [if_neg h3]
    exact ih (fun l' hl' => hpre l' (List.mem_cons_of_mem l hl'))

theorem collectNotes_magic (l : List Char) (rest : List (List Char)) (b : Bool)
    (hl : lineHasMagic l = true) :
    collectNotes (l :: rest) b = collectNotes rest true := by
  rw [collectNotes, if_pos hl]

theorem sectionNotes_cons_skip {l : List Char} {t : List (List Char)}
    (h3 : isBullet l = true) (h4 : cleanOf l = []) :
    sectionNotes (l :: t) = sectionNotes t := by
  rw [sectionNotes, sectionNotes, List.filter_cons, if_pos h3, List.map_cons,
    List.filter_cons]
  rw [if_neg]
  simp [h4]

theorem sectionNotes_cons_keep {l : List Char} {t : List (List Char)}
    (h3 : isBullet l = true) (h4 : cleanOf l ≠ []) :
    sectionNotes (l :: t) = cleanOf l :: sectionNotes t := by
  rw [sectionNotes, sectionNotes, List.filter_cons, if_pos h3, List.map_cons,
    List.filter_cons]
  rw [if_pos]
  simp [h4]

theorem sectionNotes_cons_nb {l : List Char} {t : List (List Char)}
    (h3 : ¬ isBullet l = true) :
    sectionNotes (l :: t) = sectionNotes t := by
  rw [sectionNotes, sectionNotes, List.filter_cons, if_neg h3]

theorem collectNotes_sec (mid : List (List Char)) (sl : List Char)
    (post : List (List Char))
    (hmid : ∀ l ∈ mid, lineHasMagic l = false ∧ ¬ (hashHash <+: l))
    (hslm : lineHasMagic sl = false) (hsl : hashHash <+: sl) :
    collectNotes (mid ++ sl :: post) true = sectionNotes mid := by
  induction mid with
  | nil =>
    rw [List.nil_append, collectNotes]
    have h1 : ¬ lineHasMagic sl = true := by
      rw [hslm]
      decide
    rw [if_neg h1]
    have h2 : (decide (hashHash <+: sl) && true) = true := by simp [hsl]
    rw [if_pos h2]
    rfl
  | cons l t ih =>
    rw [List.cons_append, collectNotes]
    obtain ⟨hm1, hm2⟩ := hmid l (List.mem_cons_self l t)
    have h1 : ¬ lineHasMagic l = true := by
      rw [hm1]
      decide
    rw [if_neg h1]
    have h2 : ¬ ((decide (hashHash <+: l) && true) = true) := by simp [hm2]
    rw [if_neg h2]
    have ht : collectNotes (t ++ sl :: post) true = sectionNotes t :=
      ih (fun l' hl' => hmid l' (List.mem_cons_of_mem l hl'))
    by_cases h3 : isBullet l = true
    · have h3' : (true && isBullet l) = true := by simp [h3]
      rw [if_pos h3']
      by_cases h4 : cleanOf l = []
      · rw [if_pos h4, ht, sectionNotes_cons_skip h3 h4]
      · rw [if_neg h4, ht, sectionNotes_cons_keep h3 h4]
    · have h3' : ¬ ((true && isBullet l) = true) := by simp [h3]
      rw [if_neg h3', ht, sectionNotes_cons_nb h3]

/-- With no bullet line anywhere, the line loop collects nothing, whatever
the in-section flag: headings only toggle or stop the section, and only the
bullet branch ever collects. -/
theorem collectNotes_no_bullets (ls : List (List Char))
    (hnb : ∀ l ∈ ls, isBullet l = false) :
    ∀ b, collectNotes ls b = [] := by
  induction ls with
  | nil =>
    intro b
    rw [collectNotes]
  | cons l t ih =>
    intro b
    rw [collectNotes]
    by_cases h1 : lineHasMagic l = true
    · rw [if_pos h1]
      exact ih (fun l' hl' => hnb l' (List.mem_cons_of_mem l hl')) true
    · rw [if_neg h1]
      by_cases h2 : (decide (hashHash <+: l) && b) = true
      · rw [if_pos h2]
      · rw [if_neg h2]
        have h3 : ¬ ((b && isBullet l) = true) := by
          rw [hnb l (List.mem_cons_self l t)]
          simp
        rw [if_neg h3]
        exact ih (fun l' hl' => hnb l' (List.mem_cons_of_mem l hl')) b

/-- C10: parse_release_notes is total on every input and always returns
between one and five nonempty notes; it yields exactly the default sentence
for a missing file, for a file whose lines contain no recognized heading,
for a file with no bullet line (so in particular one with a recognized
heading but no bullets), and in general whenever the line loop collects
nothing. -/
theorem parse_notes_bounds :
    (∀ file : Option (List Char), 1 ≤ (parseReleaseNotes file).length ∧
      (parseReleaseNotes file).length ≤ 5 ∧
      ∀ nt ∈ parseReleaseNotes file, nt ≠ []) ∧
    parseReleaseNotes none = [defaultNote] ∧
    (∀ content : List Char,
      (∀ l ∈ splitNl content, lineHasMagic l = false) →
      parseReleaseNotes (some content) = [defaultNote]) ∧
    (∀ content : List Char,
      (∀ l ∈ splitNl content, isBullet l = false) →
      parseReleaseNotes (some content) = [defaultNote]) ∧
    (∀ content : List Char, collectNotes (splitNl content) false = [] →
      parseReleaseNotes (some content) = [defaultNote]) := by
  refine ⟨?_, rfl, ?_, ?_, ?_⟩
  · intro file
    rcases file with _ | content
    · exact ⟨by decide, by decide, by decide⟩
    · rw [parseReleaseNotes_some]
      by_cases hnn : collectNotes (splitNl content) false = []
      · rw [if_pos hnn]
        exact ⟨by decide, by decide, by decide⟩
      · rw [if_neg hnn]
        refine ⟨?_, ?_, ?_⟩
        · rw [List.length_take]
          have := List.length_pos.mpr hnn
          omega
        · rw [List.length_take]
          omega
        · intro nt hmem
          exact collectNotes_ne_nil _ _ nt (List.mem_of_mem_take hmem)
  · intro content hall
    rw [parseReleaseNotes_some, collectNotes_no_magic _ hall, if_pos rfl]
  · intro content hall
    rw [parseReleaseNotes_some, collectNotes_no_bullets _ hall false,
      if_pos rfl]
  · intro content hnn
    rw [parseReleaseNotes_some, if_pos hnn]

theorem parse_notes_bounds_witness :
    parseReleaseNotes (some (("no heading here\n").toList)) = [defaultNote] ∧
    parseReleaseNotes
      (some (("## What\x27s Changed\njust prose, no bullets\n").toList)) =
      [defaultNote] ∧
    collectNotes (splitNl (("## What\x27s New\n").toList)) false = [] ∧
    parseReleaseNotes (some (("## What\x27s New\n").toList)) = [defaultNote] ∧
    1 ≤ (parseReleaseNotes (some exNotes)).length :=
  ⟨parse_notes_bounds.2.2.1 (("no heading here\n").toList) (by decide),
   parse_notes_bounds.2.2.2.1
     (("## What\x27s Changed\njust prose, no bullets\n").toList) (by decide),
   by decide,
   parse_notes_bounds.2.2.2.2 (("## What\x27s New\n").toList) (by decide),
   (parse_notes_bounds.1 (some exNotes)).1⟩

/-- C9: when the notes lines split as a prefix with no recognized heading,
a recognized heading, a section body, and a same-level heading, extraction
collects exactly the cleaned nonempty bullets of the body in their original
order; with eight of them, the result is exactly the first five, and the
description renders exactly those five list items. -/
theorem notes_truncation {content : List Char} {pre mid post : List (List Char)}
    {hl sl : List Char}
    (hsplit : splitNl content = pre ++ hl :: (mid ++ sl :: post))
    (hpre : ∀ l ∈ pre, lineHasMagic l = false)
    (hhl : lineHasMagic hl = true)
    (hmid : ∀ l ∈ mid, lineHasMagic l = false ∧ ¬ (hashHash <+: l))
    (hslm : lineHasMagic sl = false) (hsl : hashHash <+: sl)
    (hcount : (sectionNotes mid).length = 8) :
    parseReleaseNotes (some content) = (sectionNotes mid).take 5 ∧
    (parseReleaseNotes (some content)).length = 5 ∧
    notesHtmlOf (parseReleaseNotes (some content)) =
      joinNl (((sectionNotes mid).take 5).map (fun nt =>
        ("                    <li>").toList ++ nt ++ ("</li>").toList)) := by
  have hcn : collectNotes (splitNl content) false = sectionNotes mid := by
    rw [hsplit, collectNotes_pre pre _ hpre, collectNotes_magic _ _ _ hhl,
      collectNotes_sec mid sl post hmid hslm hsl]
  have hne : collectNotes (splitNl content) false ≠ [] := by
    rw [hcn]
    intro h0
    rw [h0] at hcount
    cases hcount
  have hp : parseReleaseNotes (some content) = (sectionNotes mid).take 5 := by
    rw [parseReleaseNotes_some, if_neg hne, hcn]
  refine ⟨hp, ?_, ?_⟩
  · rw [hp, List.length_take, hcount]
    decide
  · rw [hp, notesHtmlOf]

theorem notes_truncation_witness :
    parseReleaseNotes (some exNotes) = (sectionNotes exMid).take 5 ∧
    (parseReleaseNotes (some exNotes)).length = 5 := by
  have h := @notes_truncation exNotes exPre exMid exPost exHl exSl
    (by decide) (by decide) (by decide) (by decide) (by decide) (by decide)
    (by decide)
  exact ⟨h.1, h.2.1⟩

/-!
Exit-code characterization and the enclosure attributes.
-/

theorem mainUpdateAppcast_ge4 {argv : List (List Char)}
    {appcastFile notesFile envRepo : Option (List Char)} {date : List Char}
    (h : ¬ argv.length < 4) :
    mainUpdateAppcast argv appcastFile notesFile envRepo date =
      match appcastFile with
      | none => ⟨1, none⟩
      | some content =>
        match updateAppcast content (argv.getD 1 []) (argv.getD 2 []) notesFile
            (envRepo.getD (("zmh/quill").toList)) date with
        | none => ⟨1, none⟩
        | some out => ⟨0, some out⟩ := by
  rw [mainUpdateAppcast, if_neg h]

/-- C6 amended: the configure command exits 1 exactly when the project file
is missing and 0 otherwise, even when its patch fails; the feed command
exits 1 on a short argument vector, a missing feed document, or a missing
feed anchor, and 0 otherwise, even when the release-notes source file is
missing (the default sentence is substituted instead). -/
theorem exit_codes :
    (∀ plistExists u1 u2,
      (mainConfigure none plistExists u1 u2).exitCode = 1) ∧
    (∀ content plistExists u1 u2,
      (mainConfigure (some content) plistExists u1 u2).exitCode = 0) ∧
    (∀ argv appcastFile notesFile envRepo date, argv.length < 4 →
      (mainUpdateAppcast argv appcastFile notesFile envRepo date).exitCode = 1) ∧
    (∀ argv notesFile envRepo date, ¬ argv.length < 4 →
      (mainUpdateAppcast argv none notesFile envRepo date).exitCode = 1) ∧
    (∀ argv content notesFile envRepo date, ¬ argv.length < 4 →
      reSearch feedPat content = none →
      (mainUpdateAppcast argv (some content) notesFile envRepo date).exitCode
        = 1) ∧
    (∀ argv content notesFile envRepo date i ns, ¬ argv.length < 4 →
      reSearch feedPat content = some (i, ns) →
      (mainUpdateAppcast argv (some content) notesFile envRepo date).exitCode
        = 0) := by
  refine ⟨?_, ?_, ?_, ?_, ?_, ?_⟩
  · intro plistExists u1 u2
    rfl
  · intro content plistExists u1 u2
    cases plistExists <;> rfl
  · intro argv appcastFile notesFile envRepo date h
    rw [mainUpdateAppcast, if_pos h]
  · intro argv notesFile envRepo date h
    rw [mainUpdateAppcast_ge4 h]
  · intro argv content notesFile envRepo date h hf
    have hu : updateAppcast content (argv.getD 1 []) (argv.getD 2 [])
        notesFile (envRepo.getD (("zmh/quill").toList)) date = none := by
      rw [updateAppcast, hf]
    rw [mainUpdateAppcast_ge4 h]
    show (match updateAppcast content (argv.getD 1 []) (argv.getD 2 [])
        notesFile (envRepo.getD (("zmh/quill").toList)) date with
      | none => ({ exitCode := 1, written := none } : UResult)
      | some out => { exitCode := 0, written := some out }).exitCode = 1
    rw [hu]
  · intro argv content notesFile envRepo date i ns h hf
    have hu : updateAppcast content (argv.getD 1 []) (argv.getD 2 [])
        notesFile (envRepo.getD (("zmh/quill").toList)) date =
        some (content.take (i + ns.sum) ++
          itemBlock (argv.getD 1 []) (argv.getD 2 [])
            (parseReleaseNotes notesFile)
            (envRepo.getD (("zmh/quill").toList)) date ++
          content.drop (i + ns.sum)) := by
      rw [updateAppcast, hf]
    rw [mainUpdateAppcast_ge4 h]
    show (match updateAppcast content (argv.getD 1 []) (argv.getD 2 [])
        notesFile (envRepo.getD (("zmh/quill").toList)) date with
      | none => ({ exitCode := 1, written := none } : UResult)
      | some out => { exitCode := 0, written := some out }).exitCode = 0
    rw [hu]

set_option maxRecDepth 1000000 in
theorem exit_codes_witness :
    (mainUpdateAppcast [("u").toList] (some exFeed) none none exDate).exitCode
      = 1 ∧
    (mainUpdateAppcast exArgv none none none exDate).exitCode = 1 ∧
    (mainUpdateAppcast exArgv (some (("no anchor").toList)) none none
      exDate).exitCode = 1 ∧
    (mainUpdateAppcast exArgv (some exFeed) none none exDate).exitCode = 0 :=
  ⟨exit_codes.2.2.1 [("u").toList] (some exFeed) none none exDate (by decide),
   exit_codes.2.2.2.1 exArgv none none exDate (by decide),
   exit_codes.2.2.2.2.1 exArgv (("no anchor").toList) none none exDate
     (by decide) (by decide),
   exit_codes.2.2.2.2.2 exArgv exFeed none none exDate 247 [3, 0, 1, 0, 1]
     (by decide) (by decide)⟩

set_option maxRecDepth 1000000 in
/-- C6 counterexample: a missing release-notes source file is not fatal:
the feed update with no notes file still exits 0; and the configure command
exits 0 even when its object-graph patch fails on a document lacking the
target anchor, so a failed patch is not an unrecoverable failure either. -/
theorem exit_code_counterexample :
    (mainUpdateAppcast exArgv (some exFeed) none none exDate).exitCode = 0 ∧
    (mainConfigure (some exDocNoTarget) true exU1 exU2).exitCode = 0 ∧
    (addSparkle exU1 exU2 exDocNoTarget).ok = false := by
  refine ⟨?_, rfl, by decide⟩
  rw [mainUpdateAppcast_ge4 (by decide : ¬ exArgv.length < 4)]
  show (match updateAppcast exFeed (exArgv.getD 1 []) (exArgv.getD 2 [])
      none ((none : Option (List Char)).getD (("zmh/quill").toList)) exDate with
    | none => ({ exitCode := 1, written := none } : UResult)
    | some out => { exitCode := 0, written := some out }).exitCode = 0
  rw [updateAppcast,
    (by decide : reSearch feedPat exFeed = some (247, [3, 0, 1, 0, 1]))]

/-- C7 amended: the synthesized enclosure always carries exactly the url,
length and type attributes, in that order, and never a sparkle:edSignature
attribute; a fifth command-line argument is ignored: the invocation with it
returns exactly what the invocation without it returns. -/
theorem no_signature_attribute :
    (∀ version size notes repo date,
      (createItemElement version size notes repo date).enclosureAttrs =
        [(("url").toList, dlUrl repo version), (("length").toList, size),
         (("type").toList, ("application/octet-stream").toList)]) ∧
    (∀ p v sz nf sig rest appcastFile notesFile envRepo date,
      mainUpdateAppcast (p :: v :: sz :: nf :: sig :: rest) appcastFile
          notesFile envRepo date =
        mainUpdateAppcast (p :: v :: sz :: nf :: rest) appcastFile notesFile
          envRepo date) := by
  constructor
  · intro version size notes repo date
    rfl
  · intro p v sz nf sig rest appcastFile notesFile envRepo date
    rw [mainUpdateAppcast, mainUpdateAppcast]
    have h5 : ¬ (p :: v :: sz :: nf :: sig :: rest).length < 4 := by
      simp only [List.length_cons]
      omega
    have h4 : ¬ (p :: v :: sz :: nf :: rest).length < 4 := by
      simp only [List.length_cons]
      omega
    rw [if_neg h5, if_neg h4]
    exact rfl

/-- C7 counterexample: an invocation that supplies the signature argument
SIGVALUE returns exactly what the signature-less invocation returns, and
the enclosure attribute list of the item it synthesizes carries no
sparkle:edSignature entry, contrary to the claim that a supplied signature
appears verbatim. -/
theorem signature_ignored_counterexample :
    mainUpdateAppcast exArgvSig (some exFeed) none none exDate =
      mainUpdateAppcast exArgv (some exFeed) none none exDate ∧
    (("sparkle:edSignature").toList, ("SIGVALUE").toList) ∉
      (createItemElement (("1.0.0").toList) (("100").toList)
        (parseReleaseNotes none) (("zmh/quill").toList)
        exDate).enclosureAttrs := by
  constructor
  · rfl
  · decide

/-!
Position of the last newline in a list, and its interaction with the
whitespace run; this drives the analysis of the greedy feed anchor.
-/

theorem lastNl_none_iff {t : List Char} : lastNl t = none ↔ '\n' ∉ t := by
  induction t with
  | nil => simp [lastNl]
  | cons c r ih =>
    rw [lastNl]
    rcases hr : lastNl r with _ | j
    · by_cases hc : c = '\n'
      · rw [if_pos hc]
        subst hc
        simp
      · rw [if_neg hc]
        simp only [List.mem_cons]
        constructor
        · intro _ hcn
          rcases hcn with hcn | hcn
          · exact hc hcn.symm
          · exact ih.mp hr hcn
        · intro _
          trivial
    · simp only [List.mem_cons]
      constructor
      · intro hcon
        cases hcon
      · intro hnin
        exfalso
        refine hnin (Or.inr ?_)
        by_contra hnr
        rw [ih.mpr hnr] at hr
        cases hr

theorem lastNl_some_elim {t : List Char} {q : Nat} (h : lastNl t = some q) :
    t[q]? = some '\n' ∧ ∀ j, q < j → t[j]? ≠ some '\n' := by
  induction t generalizing q with
  | nil => cases h
  | cons c r ih =>
    rw [lastNl] at h
    rcases hr : lastNl r with _ | j
    · rw [hr] at h
      by_cases hc : c = '\n'
      · rw [if_pos hc] at h
        injection h with hq
        subst hq
        subst hc
        refine ⟨List.getElem?_cons_zero, ?_⟩
        intro j hj hcon
        rcases j with _ | j'
        · omega
        · rw [List.getElem?_cons_succ] at hcon
          have hmem : '\n' ∈ r := by
            rcases List.getElem?_eq_some.mp hcon with ⟨hlt, he⟩
            exact he ▸ List.getElem_mem hlt
          exact (lastNl_none_iff.mp hr) hmem
      · rw [if_neg hc] at h
        cases h
    · rw [hr] at h
      injection h with hq
      subst hq
      obtain ⟨h1, h2⟩ := ih hr
      refine ⟨by simpa using h1, ?_⟩
      intro j2 hj2 hcon
      rcases j2 with _ | j2'
      · omega
      · rw [List.getElem?_cons_succ] at hcon
        exact h2 j2' (by omega) hcon

theorem lastNl_intro {t : List Char} {q : Nat} (h1 : t[q]? = some '\n')
    (h2 : ∀ j, q < j → t[j]? ≠ some '\n') : lastNl t = some q := by
  rcases ht : lastNl t with _ | q'
  · exfalso
    have hmem : '\n' ∈ t := by
      rcases List.getElem?_eq_some.mp h1 with ⟨hlt, he⟩
      exact he ▸ List.getElem_mem hlt
    exact (lastNl_none_iff.mp ht) hmem
  · obtain ⟨g1, g2⟩ := lastNl_some_elim ht
    rcases Nat.lt_trichotomy q q' with h | h | h
    · exact absurd g1 (h2 q' h)
    · rw [h]
    · exact absurd h1 (g2 q h)

theorem lastNl_append_right {a b : List Char} (hb : '\n' ∉ b) :
    lastNl (a ++ b) = lastNl a := by
  induction a with
  | nil =>
    rw [List.nil_append, lastNl_none_iff.mpr hb, lastNl]
  | cons c r ih =>
    rw [List.cons_append, lastNl, lastNl, ih]

theorem lastNl_concat {a : List Char} : lastNl (a ++ ['\n']) = some a.length := by
  induction a with
  | nil => rfl
  | cons c r ih =>
    rw [List.cons_append, lastNl, ih]
    simp

theorem after_takeWhile_not {p : Char → Bool} {u : List Char} {c : Char}
    (h : u[(u.takeWhile p).length]? = some c) : p c = false := by
  induction u with
  | nil => cases h
  | cons a t ih =>
    rw [List.takeWhile_cons] at h
    by_cases hpa : p a = true
    · rw [if_pos hpa] at h
      rw [List.length_cons, List.getElem?_cons_succ] at h
      exact ih h
    · rw [if_neg hpa] at h
      rw [List.length_nil, List.getElem?_cons_zero] at h
      injection h with he
      subst he
      exact Bool.eq_false_iff.mpr hpa

theorem takeWhile_drop {p : Char → Bool} {u : List Char} {k : Nat}
    (hk : k ≤ (u.takeWhile p).length) :
    (u.drop k).takeWhile p = (u.takeWhile p).drop k := by
  induction u generalizing k with
  | nil => simp
  | cons a t ih =>
    rcases k with _ | k'
    · simp
    · by_cases hpa : p a = true
      · have hk' : k' ≤ (t.takeWhile p).length := by
          rw [List.takeWhile_cons, if_pos hpa, List.length_cons] at hk
          omega
        rw [List.drop_succ_cons, ih hk', List.takeWhile_cons, if_pos hpa,
          List.drop_succ_cons]
      · rw [List.takeWhile_cons, if_neg hpa, List.length_nil] at hk
        omega

theorem takeWhile_eq_self {p : Char → Bool} {a : List Char}
    (h : ∀ c ∈ a, p c) : a.takeWhile p = a := by
  induction a with
  | nil => rfl
  | cons c r ih =>
    rw [List.takeWhile_cons, if_pos (h c (List.mem_cons_self c r)),
      ih (fun c' hc' => h c' (List.mem_cons_of_mem c hc'))]

theorem takeWhile_append_all {p : Char → Bool} {a b : List Char}
    (h : ∀ c ∈ a, p c) : (a ++ b).takeWhile p = a ++ b.takeWhile p := by
  rw [List.takeWhile_append, takeWhile_eq_self h, if_pos rfl]

theorem getElem?_agree_front {a l : List Char} {n : Nat} (h : a <+: l)
    (hn : n < a.length) : l[n]? = a[n]? := by
  obtain ⟨r, hr⟩ := h
  rw [← hr, List.getElem?_append, if_pos hn]

/-- Any match of a pattern found by the searcher lies inside the text. -/
theorem reSearch_extent {pat : List RAtom} {content : List Char} {i : Nat}
    {ns : List Nat} (h : reSearch pat content = some (i, ns)) :
    i + ns.sum ≤ content.length := by
  obtain ⟨hi, hm, _⟩ := reSearch_some_elim h
  obtain ⟨segs, hf, hnseq, htake⟩ := matchSeq_take hm
  have hlen := congrArg List.length htake
  rw [List.length_take, List.length_flatten, ← hnseq, List.length_drop] at hlen
  omega

/-- The greedy tail of the feed anchor consumes the whitespace run exactly
up to and including its last newline: whatever backtracking path is taken,
the consumed length is determined by the position of the last newline of
the run. -/
theorem feed_tail_sum {u : List Char} {ns : List Nat}
    (h : matchSeq [RAtom.star isWs, RAtom.lit (("\n").toList),
      RAtom.star isWs, RAtom.lit (("\n").toList)] u = some ns) :
    ∃ q, lastNl (u.takeWhile isWs) = some q ∧ ns.sum = q + 1 := by
  rw [matchSeq] at h
  rcases htd : tryDown (fun v => matchSeq [RAtom.lit (("\n").toList),
      RAtom.star isWs, RAtom.lit (("\n").toList)] v) u 0
      (u.takeWhile isWs).length with _ | ⟨a, ns₁⟩
  · rw [htd] at h
    cases h
  · rw [htd] at h
    simp only [Option.map_some', Option.some.injEq] at h
    subst h
    obtain ⟨hfa, haK, _, hmaxa⟩ := tryDown_some_elim htd
    rw [matchSeq] at hfa
    by_cases hnl1 : ("\n").toList <+: u.drop a
    · rw [if_pos hnl1] at hfa
      rw [show (("\n").toList).length = 1 from rfl, List.drop_drop] at hfa
      rcases hm2 : matchSeq [RAtom.star isWs, RAtom.lit (("\n").toList)]
          (u.drop (a + 1)) with _ | ns₂
      · rw [hm2] at hfa
        cases hfa
      · rw [hm2] at hfa
        simp only [Option.map_some', Option.some.injEq] at hfa
        subst hfa
        rw [matchSeq] at hm2
        rcases htd2 : tryDown (fun w => matchSeq [RAtom.lit (("\n").toList)] w)
            (u.drop (a + 1)) 0 ((u.drop (a + 1)).takeWhile isWs).length
            with _ | ⟨b, ns₃⟩
        · rw [htd2] at hm2
          cases hm2
        · rw [htd2] at hm2
          simp only [Option.map_some', Option.some.injEq] at hm2
          subst hm2
          obtain ⟨hfb, hbK2, _, hmaxb⟩ := tryDown_some_elim htd2
          rw [matchSeq] at hfb
          by_cases hnl2 : ("\n").toList <+: (u.drop (a + 1)).drop b
          · rw [if_pos hnl2] at hfb
            rw [matchSeq] at hfb
            simp only [Option.map_some', Option.some.injEq] at hfb
            obtain ⟨ra, hra⟩ := hnl1
            have hua : u[a]? = some '\n' := by
              have h0 : (u.drop a)[0]? = some '\n' := by
                rw [← hra, show ("\n").toList = ['\n'] from rfl,
                  List.singleton_append]
                exact List.getElem?_cons_zero
              rw [List.getElem?_drop, Nat.add_zero] at h0
              exact h0
            have haK' : a < (u.takeWhile isWs).length := by
              rcases Nat.lt_or_ge a (u.takeWhile isWs).length with hlt | hge
              · exact hlt
              · exfalso
                have hae : a = (u.takeWhile isWs).length :=
                  Nat.le_antisymm haK hge
                rw [hae] at hua
                exact absurd (after_takeWhile_not hua) (by decide)
            have htwd : (u.drop (a + 1)).takeWhile isWs =
                (u.takeWhile isWs).drop (a + 1) := takeWhile_drop haK'
            have hK2 : ((u.drop (a + 1)).takeWhile isWs).length =
                (u.takeWhile isWs).length - (a + 1) := by
              rw [htwd, List.length_drop]
            obtain ⟨rb, hrb⟩ := hnl2
            have hvb : (u.drop (a + 1))[b]? = some '\n' := by
              have h0 : ((u.drop (a + 1)).drop b)[0]? = some '\n' := by
                rw [← hrb, show ("\n").toList = ['\n'] from rfl,
                  List.singleton_append]
                exact List.getElem?_cons_zero
              rw [List.getElem?_drop, Nat.add_zero] at h0
              exact h0
            have hbK2' : b < ((u.drop (a + 1)).takeWhile isWs).length := by
              rcases Nat.lt_or_ge b ((u.drop (a + 1)).takeWhile isWs).length
                with hlt | hge
              · exact hlt
              · exfalso
                have hbe : b = ((u.drop (a + 1)).takeWhile isWs).length :=
                  Nat.le_antisymm hbK2 hge
                rw [hbe] at hvb
                exact absurd (after_takeWhile_not hvb) (by decide)
            have hub : u[a + 1 + b]? = some '\n' := by
              rw [List.getElem?_drop] at hvb
              exact hvb
            have hab_lt : a + 1 + b < (u.takeWhile isWs).length := by omega
            have hWpre : u.takeWhile isWs <+: u := List.takeWhile_prefix isWs
            have hWq : (u.takeWhile isWs)[a + 1 + b]? = some '\n' := by
              rw [← getElem?_agree_front hWpre hab_lt]
              exact hub
            have hWmax : ∀ j, a + 1 + b < j →
                (u.takeWhile isWs)[j]? ≠ some '\n' := by
              intro j hj hcon
              have hjW : j < (u.takeWhile isWs).length := by
                by_contra hge
                rw [List.getElem?_eq_none (by omega)] at hcon
                cases hcon
              have huj : u[j]? = some '\n' := by
                rw [getElem?_agree_front hWpre hjW]
                exact hcon
              have hvj : (u.drop (a + 1))[j - (a + 1)]? = some '\n' := by
                rw [List.getElem?_drop,
                  show a + 1 + (j - (a + 1)) = j from by omega]
                exact huj
              have hmz := hmaxb (j - (a + 1)) (by omega) (by omega)
              have hv0 : ((u.drop (a + 1)).drop (j - (a + 1)))[0]? =
                  some '\n' := by
                rw [List.getElem?_drop, Nat.add_zero]
                exact hvj
              rcases hvd : (u.drop (a + 1)).drop (j - (a + 1)) with _ | ⟨c0, t0⟩
              · rw [hvd] at hv0
                cases hv0
              · rw [hvd] at hv0
                rw [List.getElem?_cons_zero] at hv0
                injection hv0 with hc0
                subst hc0
                rw [hvd] at hmz
                have hpfx2 : ([("\n").toList] : List (List Char)).flatten <+:
                    '\n' :: t0 := by
                  simp only [List.flatten_cons, List.flatten_nil,
                    List.append_nil, show ("\n").toList = ['\n'] from rfl]
                  exact ⟨t0, rfl⟩
                exact matchSeq_complete
                  (List.Forall₂.cons
                    (show AtomMatches (RAtom.lit (("\n").toList))
                      (("\n").toList) from rfl) List.Forall₂.nil)
                  hpfx2 hmz
            refine ⟨a + 1 + b, lastNl_intro hWq hWmax, ?_⟩
            rw [← hfb]
            simp only [List.sum_cons, List.sum_nil,
              show (("\n").toList).length = 1 from rfl]
            omega
          · rw [if_neg hnl2] at hfb
            cases hfb
    · rw [if_neg hnl1] at hfa
      cases hfa

/-- The extent of any feed-anchor match is three characters for the
comment-closing literal plus the prefix of the following whitespace run up
to and including its last newline. -/
theorem feed_pat_sum {u : List Char} {ns : List Nat}
    (h : matchSeq feedPat u = some ns) :
    ∃ q, lastNl ((u.drop 3).takeWhile isWs) = some q ∧ ns.sum = 3 + (q + 1) := by
  rw [feedPat, matchSeq] at h
  by_cases hp : ("-->").toList <+: u
  · rw [if_pos hp] at h
    rw [show (("-->").toList).length = 3 from rfl] at h
    rcases hm : matchSeq [RAtom.star isWs, RAtom.lit (("\n").toList),
        RAtom.star isWs, RAtom.lit (("\n").toList)] (u.drop 3) with _ | ns'
    · rw [hm] at h
      cases h
    · rw [hm] at h
      simp only [Option.map_some', Option.some.injEq] at h
      subst h
      obtain ⟨q, hq, hsum⟩ := feed_tail_sum hm
      refine ⟨q, hq, ?_⟩
      simp only [List.sum_cons, hsum]
  · rw [if_neg hp] at h
    cases h

/-- Structure of any feed-anchor match: the consumed text is the closing
literal, a whitespace run, a newline, another whitespace run, and a final
newline. -/
theorem feed_match_decomp {cs : List Char} {ns : List Nat}
    (h : matchSeq feedPat cs = some ns) :
    ∃ w1 w2 : List Char,
      ns = [3, w1.length, 1, w2.length, 1] ∧
      (∀ c ∈ w1, isWs c) ∧ (∀ c ∈ w2, isWs c) ∧
      cs.take ns.sum = ("-->").toList ++ (w1 ++ (['\n'] ++ (w2 ++ ['\n']))) := by
  obtain ⟨segs, hf, hnseq, htake⟩ := matchSeq_take h
  rw [feedPat] at hf
  rw [List.forall₂_cons_left_iff] at hf
  obtain ⟨s1, _, h1, hf, rfl⟩ := hf
  rw [List.forall₂_cons_left_iff] at hf
  obtain ⟨w1, _, h2, hf, rfl⟩ := hf
  rw [List.forall₂_cons_left_iff] at hf
  obtain ⟨s3, _, h3, hf, rfl⟩ := hf
  rw [List.forall₂_cons_left_iff] at hf
  obtain ⟨w2, _, h4, hf, rfl⟩ := hf
  rw [List.forall₂_cons_left_iff] at hf
  obtain ⟨s5, _, h5, hf, rfl⟩ := hf
  cases hf
  have e1 : s1 = ("-->").toList := h1
  have e3 : s3 = ("\n").toList := h3
  have e5 : s5 = ("\n").toList := h5
  subst e1
  subst e3
  subst e5
  subst hnseq
  refine ⟨w1, w2, ?_, h2, h4, ?_⟩
  · simp only [List.map_cons, List.map_nil,
      show (("-->").toList).length = 3 from rfl,
      show (("\n").toList).length = 1 from rfl]
  · rw [htake]
    simp only [List.flatten_cons, List.flatten_nil, List.append_nil,
      show ("\n").toList = ['\n'] from rfl]

/-- All characters of the whitespace block of a decomposed anchor match are
whitespace. -/
theorem feed_block_ws {w1 w2 : List Char} (hw1 : ∀ c ∈ w1, isWs c)
    (hw2 : ∀ c ∈ w2, isWs c) :
    ∀ c ∈ w1 ++ (['\n'] ++ (w2 ++ ['\n'])), isWs c := by
  intro c hc
  simp only [List.mem_append, List.mem_cons, List.not_mem_nil, or_false] at hc
  rcases hc with hc | (hc | (hc | hc))
  · exact hw1 c hc
  · rw [hc]
    decide
  · exact hw2 c hc
  · rw [hc]
    decide

/-- No position strictly before the old anchor start can match the anchor
in the document with the block inserted right after the old match. -/
theorem feed_no_early {content t : List Char} {i j : Nat} {ns : List Nat}
    (h : reSearch feedPat content = some (i, ns)) (hj : j < i) :
    matchSeq feedPat
      ((content.take (i + ns.sum) ++ (t ++ content.drop (i + ns.sum))).drop j)
      = none := by
  obtain ⟨hi, hm, hleft⟩ := reSearch_some_elim h
  have hext : i + ns.sum ≤ content.length := reSearch_extent h
  have hXlen : (content.take (i + ns.sum)).length = i + ns.sum := by
    rw [List.length_take]
    omega
  have hagree : ∀ m, m ≤ i + ns.sum - j →
      ((content.take (i + ns.sum) ++ (t ++ content.drop (i + ns.sum))).drop
        j).take m = (content.drop j).take m := by
    intro m hm'
    rw [List.drop_append_of_le_length (by omega), List.take_append_of_le_length
      (by rw [List.length_drop, hXlen]; omega), List.drop_take, List.take_take,
      Nat.min_eq_left (by omega)]
  rcases hms : matchSeq feedPat
      ((content.take (i + ns.sum) ++ (t ++ content.drop (i + ns.sum))).drop j)
      with _ | ms
  · rfl
  · exfalso
    obtain ⟨w1, w2, hnseq', hw1, hw2, htake'⟩ := feed_match_decomp hms
    have hflen : (("-->").toList ++ (w1 ++ (['\n'] ++ (w2 ++ ['\n'])))).length
        = ms.sum := by
      rw [hnseq']
      simp [List.length_append]
      omega
    rcases le_or_lt ms.sum (i + ns.sum - j) with hle | hlt
    · have he := hagree ms.sum hle
      rw [htake'] at he
      have hpre : ("-->").toList ++ (w1 ++ (['\n'] ++ (w2 ++ ['\n']))) <+:
          content.drop j := by
        rw [he]
        exact List.take_prefix _ _
      have hfor : List.Forall₂ AtomMatches feedPat
          [("-->").toList, w1, ("\n").toList, w2, ("\n").toList] := by
        rw [feedPat]
        exact List.Forall₂.cons rfl (List.Forall₂.cons hw1 (List.Forall₂.cons
          rfl (List.Forall₂.cons hw2 (List.Forall₂.cons rfl List.Forall₂.nil))))
      have hflt : ([("-->").toList, w1, ("\n").toList, w2,
          ("\n").toList] : List (List Char)).flatten <+: content.drop j := by
        simp only [List.flatten_cons, List.flatten_nil, List.append_nil,
          show ("\n").toList = ['\n'] from rfl]
        exact hpre
      exact matchSeq_complete hfor hflt (hleft j hj)
    · obtain ⟨w1o, w2o, hnso, hw1o, hw2o, htko⟩ := feed_match_decomp hm
      have hnsum : ns.sum = 3 + (w1o.length + (1 + (w2o.length + 1))) := by
        rw [hnso]
        simp
      have hmsum : ms.sum = 3 + (w1.length + (1 + (w2.length + 1))) := by
        rw [hnseq']
        simp
      have hflat' : ("-->").toList ++ (w1 ++ (['\n'] ++ (w2 ++ ['\n']))) <+:
          (content.take (i + ns.sum) ++
            (t ++ content.drop (i + ns.sum))).drop j := by
        rw [← htake']
        exact List.take_prefix _ _
      have hnew_j : ∀ m, m < ms.sum →
          ((content.take (i + ns.sum) ++ (t ++ content.drop (i + ns.sum))).drop
            j)[m]? =
          (("-->").toList ++ (w1 ++ (['\n'] ++ (w2 ++ ['\n']))))[m]? := by
        intro m hmlt
        exact getElem?_agree_front hflat' (by rw [hflen]; omega)
      have hnew_i : ∀ k, k < 3 →
          (content.take (i + ns.sum) ++
            (t ++ content.drop (i + ns.sum)))[i + k]? =
          (("-->").toList)[k]? := by
        intro k hk
        have hik : i + k < i + ns.sum := by omega
        rw [List.getElem?_append, if_pos (by omega), List.getElem?_take,
          if_pos hik]
        have hcd : content[i + k]? = (content.drop i)[k]? := by
          rw [List.getElem?_drop]
        rw [hcd]
        have hmpre : (content.drop i).take ns.sum <+: content.drop i :=
          List.take_prefix _ _
        have hklt : k < ((content.drop i).take ns.sum).length := by
          rw [List.length_take, List.length_drop]
          omega
        rw [getElem?_agree_front hmpre hklt, htko, List.getElem?_append,
          if_pos (by simp; omega)]
      have hdj : ∀ m,
          ((content.take (i + ns.sum) ++
            (t ++ content.drop (i + ns.sum))).drop j)[m]? =
          (content.take (i + ns.sum) ++
            (t ++ content.drop (i + ns.sum)))[j + m]? := by
        intro m
        rw [List.getElem?_drop]
      have harrow0 : (("-->").toList)[0]? = some '-' := rfl
      have harrow1 : (("-->").toList)[1]? = some '-' := rfl
      have harrow2 : (("-->").toList)[2]? = some '>' := rfl
      rcases Nat.lt_or_ge (i - j) 3 with hp3 | hp3
      · rcases Nat.lt_trichotomy (i - j) 1 with h1 | h1 | h1
        · omega
        · have ha : ((content.take (i + ns.sum) ++
              (t ++ content.drop (i + ns.sum))).drop j)[2]? = some '>' := by
            rw [hnew_j 2 (by omega), List.getElem?_append, if_pos (by simp)]
            exact harrow2
          have hb : ((content.take (i + ns.sum) ++
              (t ++ content.drop (i + ns.sum))).drop j)[2]? = some '-' := by
            rw [hdj, show j + 2 = i + 1 from by omega]
            rw [hnew_i 1 (by omega)]
            exact harrow1
          rw [ha] at hb
          cases hb
        · have ha : ((content.take (i + ns.sum) ++
              (t ++ content.drop (i + ns.sum))).drop j)[2]? = some '>' := by
            rw [hnew_j 2 (by omega), List.getElem?_append, if_pos (by simp)]
            exact harrow2
          have hb : ((content.take (i + ns.sum) ++
              (t ++ content.drop (i + ns.sum))).drop j)[2]? = some '-' := by
            rw [hdj, show j + 2 = i + 0 from by omega]
            rw [hnew_i 0 (by omega)]
            exact harrow0
          rw [ha] at hb
          cases hb
      · have hplt : i - j < ms.sum := by omega
        have ha := hnew_j (i - j) hplt
        have hb : ((content.take (i + ns.sum) ++
            (t ++ content.drop (i + ns.sum))).drop j)[i - j]? = some '-' := by
          rw [hdj, show j + (i - j) = i + 0 from by omega]
          rw [hnew_i 0 (by omega)]
          exact harrow0
        rw [hb] at ha
        have hQ : (w1 ++ (['\n'] ++ (w2 ++ ['\n'])))[i - j - 3]? = some '-' := by
          rw [List.getElem?_append, if_neg (by simp; omega)] at ha
          rw [show (("-->").toList).length = 3 from rfl] at ha
          exact ha.symm
        have hmem : '-' ∈ w1 ++ (['\n'] ++ (w2 ++ ['\n'])) := by
          rcases List.getElem?_eq_some.mp hQ with ⟨hlt2, he2⟩
          exact he2 ▸ List.getElem_mem hlt2
        have := feed_block_ws hw1 hw2 '-' hmem
        exact absurd this (by decide)

theorem joinNl_cons_ne {a : List Char} {ls : List (List Char)} (h : ls ≠ []) :
    joinNl (a :: ls) = a ++ '\n' :: joinNl ls := by
  rcases ls with _ | ⟨b, t⟩
  · exact absurd rfl h
  · rfl

/-- The inserted block always begins with eight spaces and an opening
angle bracket. -/
theorem itemBlock_head (version size : List Char) (notes : List (List Char))
    (repo date : List Char) :
    ∃ rest, itemBlock version size notes repo date =
      ("        <").toList ++ rest := by
  rw [itemBlock, formatItem]
  rw [List.singleton_append, List.cons_append]
  have hne : (((splitNl (itemToString (createItemElement version size notes
      repo date))).map (pyStrip isWs)).filter
        (fun l => decide (l ≠ [] ∧ l ≠ ("<item>").toList ∧
          l ≠ ("</item>").toList))).map
      (fun l => ("            ").toList ++ l) ++
      [("        </item>").toList] ≠ [] :=
    List.append_ne_nil_of_right_ne_nil _ (by simp)
  rw [joinNl_cons_ne hne]
  rw [show ("        <item>").toList =
    ("        <").toList ++ ("item>").toList from by decide]
  rw [List.append_assoc, List.append_assoc]
  exact ⟨_, rfl⟩

/-- Whitespace run of an all-whitespace block followed by the inserted
text: it extends exactly through the block and the eight leading spaces. -/
theorem takeWhile_ws_block (Q rest D : List Char) (hQ : ∀ c ∈ Q, isWs c) :
    (Q ++ ((("        <").toList ++ rest) ++ D)).takeWhile isWs =
      Q ++ ("        ").toList := by
  rw [takeWhile_append_all hQ]
  have h2 : ((("        <").toList ++ rest) ++ D).takeWhile isWs =
      ("        ").toList ++ [] := by
    rw [show ("        <").toList = ("        ").toList ++ ['<'] from by decide,
      List.append_assoc, List.append_assoc,
      takeWhile_append_all (by decide : ∀ c ∈ ("        ").toList, isWs c),
      List.singleton_append, List.takeWhile_cons_of_neg (by decide)]
  rw [h2, List.append_nil]

/-- Inserting a block that starts with spaces and an angle bracket right
after the anchor match leaves the anchor position and extent unchanged. -/
theorem feed_stable {content t : List Char} {i : Nat} {ns : List Nat}
    (h : reSearch feedPat content = some (i, ns))
    (ht : ∃ rest, t = ("        <").toList ++ rest) :
    ∃ ns', reSearch feedPat
        (content.take (i + ns.sum) ++ (t ++ content.drop (i + ns.sum))) =
      some (i, ns') ∧ ns'.sum = ns.sum := by
  obtain ⟨hi, hm, hleft⟩ := reSearch_some_elim h
  have hext : i + ns.sum ≤ content.length := reSearch_extent h
  obtain ⟨w1o, w2o, hnso, hw1o, hw2o, htko⟩ := feed_match_decomp hm
  have hXlen : (content.take (i + ns.sum)).length = i + ns.sum := by
    rw [List.length_take]
    omega
  have hdropi : (content.take (i + ns.sum) ++
      (t ++ content.drop (i + ns.sum))).drop i =
      (("-->").toList ++ (w1o ++ (['\n'] ++ (w2o ++ ['\n'])))) ++
        (t ++ content.drop (i + ns.sum)) := by
    rw [List.drop_append_of_le_length (by omega)]
    congr 1
    rw [List.drop_take, Nat.add_sub_cancel_left, htko]
  have hfor : List.Forall₂ AtomMatches feedPat
      [("-->").toList, w1o, ("\n").toList, w2o, ("\n").toList] := by
    rw [feedPat]
    exact .cons rfl (.cons hw1o (.cons rfl (.cons hw2o (.cons rfl .nil))))
  have hflt : ([("-->").toList, w1o, ("\n").toList, w2o,
      ("\n").toList] : List (List Char)).flatten <+:
      (content.take (i + ns.sum) ++ (t ++ content.drop (i + ns.sum))).drop i := by
    simp only [List.flatten_cons, List.flatten_nil, List.append_nil,
      show ("\n").toList = ['\n'] from rfl]
    rw [hdropi]
    exact List.prefix_append _ _
  have hnn := matchSeq_complete hfor hflt
  rcases hms : matchSeq feedPat
      ((content.take (i + ns.sum) ++ (t ++ content.drop (i + ns.sum))).drop i)
      with _ | ns'
  · exact absurd hms hnn
  · obtain ⟨q', hq', hsum'⟩ := feed_pat_sum hms
    obtain ⟨rest, hrest⟩ := ht
    have hA3 : (("-->").toList ++
        (w1o ++ (['\n'] ++ (w2o ++ ['\n'])))).drop 3 =
        w1o ++ (['\n'] ++ (w2o ++ ['\n'])) := by
      rw [show (3 : Nat) = (("-->").toList).length from rfl]
      exact List.drop_left _ _

    have hd3 : ((content.take (i + ns.sum) ++
        (t ++ content.drop (i + ns.sum))).drop i).drop 3 =
        (w1o ++ (['\n'] ++ (w2o ++ ['\n']))) ++
          (t ++ content.drop (i + ns.sum)) := by
      rw [hdropi, List.drop_append_of_le_length (by simp), hA3]
    have hws_run : (((content.take (i + ns.sum) ++
        (t ++ content.drop (i + ns.sum))).drop i).drop 3).takeWhile isWs =
        (w1o ++ (['\n'] ++ (w2o ++ ['\n']))) ++ ("        ").toList := by
      rw [hd3, hrest]
      exact takeWhile_ws_block _ rest _ (feed_block_ws hw1o hw2o)

    have hlast : lastNl ((((content.take (i + ns.sum) ++
        (t ++ content.drop (i + ns.sum))).drop i).drop 3).takeWhile isWs) =
        some (w1o.length + (1 + w2o.length)) := by
      rw [hws_run, lastNl_append_right (by decide : '\n' ∉ ("        ").toList)]
      rw [show w1o ++ (['\n'] ++ (w2o ++ ['\n'])) =
        (w1o ++ ('\n' :: w2o)) ++ ['\n'] from by simp]
      rw [lastNl_concat]
      simp [List.length_append]
      omega
    rw [hq'] at hlast
    injection hlast with hqe
    refine ⟨ns', ?_, ?_⟩
    · exact reSearch_some_intro hms (fun d hd => feed_no_early h hd)
        (by rw [List.length_append]; omega)
    · rw [hsum', hnso]
      simp only [List.sum_cons, List.sum_nil]
      omega

theorem take_len_append {X Y : List Char} {n : Nat} (hX : X.length = n) :
    (X ++ Y).take n = X := by
  rw [← hX, List.take_left]

theorem drop_len_append {X Y : List Char} {n : Nat} (hX : X.length = n) :
    (X ++ Y).drop n = Y := by
  rw [← hX, List.drop_left]

theorem head_append {t u : List Char}
    (ht : ∃ rest, t = ("        <").toList ++ rest) :
    ∃ rest, t ++ u = ("        <").toList ++ rest := by
  obtain ⟨r, hr⟩ := ht
  exact ⟨r ++ u, by rw [hr, List.append_assoc]⟩

/-- C8: on a feed whose text matches the anchor (the closing of the leading
comment block followed by a blank line), every release entry is inserted at
that single fixed point, so inserting entries for versions 1.0.0, 1.0.1 and
1.0.2 in that call order yields a feed whose blocks, read top to bottom,
are 1.0.2, 1.0.1, 1.0.0, in front of everything that followed the anchor:
new entries always prepend. -/
theorem feed_prepend {content : List Char} {i : Nat} {ns : List Nat}
    (h : reSearch feedPat content = some (i, ns))
    (size1 size2 size3 repo d1 d2 d3 : List Char)
    (nf1 nf2 nf3 : Option (List Char)) :
    ∃ c1 c2 c3 : List Char,
      updateAppcast content (("1.0.0").toList) size1 nf1 repo d1 = some c1 ∧
      updateAppcast c1 (("1.0.1").toList) size2 nf2 repo d2 = some c2 ∧
      updateAppcast c2 (("1.0.2").toList) size3 nf3 repo d3 = some c3 ∧
      c3 = content.take (i + ns.sum) ++
        (itemBlock (("1.0.2").toList) size3 (parseReleaseNotes nf3) repo d3 ++
          (itemBlock (("1.0.1").toList) size2 (parseReleaseNotes nf2) repo d2 ++
            (itemBlock (("1.0.0").toList) size1 (parseReleaseNotes nf1) repo d1
              ++ content.drop (i + ns.sum)))) := by
  have hext : i + ns.sum ≤ content.length := reSearch_extent h
  have hX : (content.take (i + ns.sum)).length = i + ns.sum := by
    rw [List.length_take]
    omega
  obtain ⟨ns1, hs1, hsum1⟩ := feed_stable h
    (itemBlock_head (("1.0.0").toList) size1 (parseReleaseNotes nf1) repo d1)
  obtain ⟨ns2, hs2, hsum2⟩ := feed_stable h
    (head_append (itemBlock_head (("1.0.1").toList) size2
      (parseReleaseNotes nf2) repo d2))
  have hs2' : reSearch feedPat (content.take (i + ns.sum) ++
      (itemBlock (("1.0.1").toList) size2 (parseReleaseNotes nf2) repo d2 ++
        (itemBlock (("1.0.0").toList) size1 (parseReleaseNotes nf1) repo d1 ++
          content.drop (i + ns.sum)))) = some (i, ns2) := by
    rw [show content.take (i + ns.sum) ++
        (itemBlock (("1.0.1").toList) size2 (parseReleaseNotes nf2) repo d2 ++
          (itemBlock (("1.0.0").toList) size1 (parseReleaseNotes nf1) repo d1 ++
            content.drop (i + ns.sum))) =
      content.take (i + ns.sum) ++
        ((itemBlock (("1.0.1").toList) size2 (parseReleaseNotes nf2) repo d2 ++
          itemBlock (("1.0.0").toList) size1 (parseReleaseNotes nf1) repo d1) ++
            content.drop (i + ns.sum)) from by simp [List.append_assoc]]
    exact hs2
  refine ⟨content.take (i + ns.sum) ++
      (itemBlock (("1.0.0").toList) size1 (parseReleaseNotes nf1) repo d1 ++
        content.drop (i + ns.sum)),
    content.take (i + ns.sum) ++
      (itemBlock (("1.0.1").toList) size2 (parseReleaseNotes nf2) repo d2 ++
        (itemBlock (("1.0.0").toList) size1 (parseReleaseNotes nf1) repo d1 ++
          content.drop (i + ns.sum))),
    content.take (i + ns.sum) ++
      (itemBlock (("1.0.2").toList) size3 (parseReleaseNotes nf3) repo d3 ++
        (itemBlock (("1.0.1").toList) size2 (parseReleaseNotes nf2) repo d2 ++
          (itemBlock (("1.0.0").toList) size1 (parseReleaseNotes nf1) repo d1 ++
            content.drop (i + ns.sum)))), ?_, ?_, ?_, rfl⟩
  · rw [updateAppcast, h]
    show some (content.take (i + ns.sum) ++
      itemBlock (("1.0.0").toList) size1 (parseReleaseNotes nf1) repo d1 ++
      content.drop (i + ns.sum)) = _
    rw [List.append_assoc]
  · rw [updateAppcast, hs1]
    show some ((content.take (i + ns.sum) ++
        (itemBlock (("1.0.0").toList) size1 (parseReleaseNotes nf1) repo d1 ++
          content.drop (i + ns.sum))).take (i + ns1.sum) ++
      itemBlock (("1.0.1").toList) size2 (parseReleaseNotes nf2) repo d2 ++
      (content.take (i + ns.sum) ++
        (itemBlock (("1.0.0").toList) size1 (parseReleaseNotes nf1) repo d1 ++
          content.drop (i + ns.sum))).drop (i + ns1.sum)) = _
    rw [hsum1, take_len_append hX, drop_len_append hX, List.append_assoc]
  · rw [updateAppcast, hs2']
    show some ((content.take (i + ns.sum) ++
        (itemBlock (("1.0.1").toList) size2 (parseReleaseNotes nf2) repo d2 ++
          (itemBlock (("1.0.0").toList) size1 (parseReleaseNotes nf1) repo d1 ++
            content.drop (i + ns.sum)))).take (i + ns2.sum) ++
      itemBlock (("1.0.2").toList) size3 (parseReleaseNotes nf3) repo d3 ++
      (content.take (i + ns.sum) ++
        (itemBlock (("1.0.1").toList) size2 (parseReleaseNotes nf2) repo d2 ++
          (itemBlock (("1.0.0").toList) size1 (parseReleaseNotes nf1) repo d1 ++
            content.drop (i + ns.sum)))).drop (i + ns2.sum)) = _
    rw [hsum2, take_len_append hX, drop_len_append hX, List.append_assoc]

set_option maxRecDepth 1000000 in
theorem feed_prepend_witness :
    ∃ c1 c2 c3 : List Char,
      updateAppcast exFeed (("1.0.0").toList) (("100").toList) none
        (("zmh/quill").toList) exDate = some c1 ∧
      updateAppcast c1 (("1.0.1").toList) (("200").toList) none
        (("zmh/quill").toList) exDate = some c2 ∧
      updateAppcast c2 (("1.0.2").toList) (("300").toList) none
        (("zmh/quill").toList) exDate = some c3 ∧
      c3 = exFeed.take 252 ++
        (itemBlock (("1.0.2").toList) (("300").toList) (parseReleaseNotes none)
          (("zmh/quill").toList) exDate ++
        (itemBlock (("1.0.1").toList) (("200").toList) (parseReleaseNotes none)
          (("zmh/quill").toList) exDate ++
        (itemBlock (("1.0.0").toList) (("100").toList) (parseReleaseNotes none)
          (("zmh/quill").toList) exDate ++ exFeed.drop 252))) :=
  @feed_prepend exFeed 247 [3, 0, 1, 0, 1] (by decide) (("100").toList)
    (("200").toList) (("300").toList) (("zmh/quill").toList) exDate exDate
    exDate none none none

end Quill
